import Mathlib

/-!
# Verification of the whTimer hierarchical timing-wheel engine

Shallow embedding of the Go package `whTimer` (timing wheel, MPSC intake
queue, driver maintenance) and proofs of the specification's claims about it.

Entries are identified by natural-number ids; machine `uint64` values are
modelled as `Nat` with explicit `% 2^64` / `< 2^64` bounds where overflow
matters.
-/

namespace WhTimer

/-! ## Frozen constant tables (source: `msPerSlot`, `maxMs`, `shift`, `mask`)

The Go tables are `[MaxLevel+1]uint64` arrays, indices `0..6`.  An access
beyond index 6 would panic in Go and is unreachable (wheel levels never
exceed `MaxLevel = 6`); the Lean tables return 0 there. -/

/-- `SlotBits = 6`, `SlotSize = 64`, `SlotMask = 0x3F`, `MaxLevel = 6`. -/
def SlotBits : Nat := 6

def SlotSize : Nat := 1 <<< SlotBits

def SlotMask : Nat := SlotSize - 1

def MaxLevel : Nat := 6

/-- Source table `msPerSlot = {1, 64, 4096, 262144, 16777216, 1073741824, 68719476736}`. -/
def msPerSlot (l : Nat) : Nat :=
  match l with
  | 0 => 1
  | 1 => 64
  | 2 => 4096
  | 3 => 262144
  | 4 => 16777216
  | 5 => 1073741824
  | 6 => 68719476736
  | _ => 0

/-- Source table `maxMs = {64, 4096, 262144, 16777216, 1073741824, 68719476736, 4398046511104}`. -/
def maxMs (l : Nat) : Nat :=
  match l with
  | 0 => 64
  | 1 => 4096
  | 2 => 262144
  | 3 => 16777216
  | 4 => 1073741824
  | 5 => 68719476736
  | 6 => 4398046511104
  | _ => 0

/-- Source table `shift = {0, 6, 12, 18, 24, 30, 36}`. -/
def shift (l : Nat) : Nat :=
  match l with
  | 0 => 0
  | 1 => 6
  | 2 => 12
  | 3 => 18
  | 4 => 24
  | 5 => 30
  | 6 => 36
  | _ => 0

/-- Source table `mask = {0x3F, 0x3F << 6, ..., 0x3F << 36}`. -/
def mask (l : Nat) : Nat :=
  match l with
  | 0 => 0x3F
  | 1 => 0x3F <<< 6
  | 2 => 0x3F <<< 12
  | 3 => 0x3F <<< 18
  | 4 => 0x3F <<< 24
  | 5 => 0x3F <<< 30
  | 6 => 0x3F <<< 36
  | _ => 0

/-! ## Bit helpers -/

/-- Count trailing zeros with explicit fuel; `ctzAux 64` matches
`bits.TrailingZeros64` on all `uint64` values (it returns 64 at 0). -/
def ctzAux : Nat → Nat → Nat
  | 0, _ => 0
  | f + 1, x => if x % 2 = 1 then 0 else ctzAux f (x / 2) + 1

/-- `bits.TrailingZeros64` from the source's expiry scan. -/
def ctz64 (x : Nat) : Nat := ctzAux 64 x

/-- Models the Go and-not `bm &^ (1 << i)`: clear bit `i` of `bm`. -/
def clearBit (bm i : Nat) : Nat :=
  if bm.testBit i then bm ^^^ (1 <<< i) else bm

/-- Safe array read at a `Nat` index; Go array indices are always `< 64` here. -/
def getF {α : Type} (f : Fin 64 → α) (i : Nat) (d : α) : α :=
  if h : i < 64 then f ⟨i, h⟩ else d

/-- Array write at a `Nat` index. -/
def updF {α : Type} (f : Fin 64 → α) (i : Nat) (v : α) : Fin 64 → α :=
  fun j => if j.val = i then v else f j

/-- The set bit indices of a 64-bit word, least significant first.  This is
the spec's reading order: "iterate set bits of `bitmap` from least to most
significant". -/
def setBits (bm : Nat) : List Nat :=
  (List.range 64).filter fun i => bm.testBit i

/-! ## The Wheel (source: `Wheel` struct)

The Go struct is
`Wheel { level int; bitmap uint64; entries [64]*Entry; subWheels [64]*Wheel }`
where at level 0 only `entries` is used (intrusive singly-linked entry lists,
modelled as `List Nat` of entry ids) and at level > 0 only `subWheels` is used
(possibly-nil child wheels, one level lower).  The source maintains
`level = child.level + 1`; the Lean type index carries the `level` field, so
`Wheel n` gives at each level the `(bitmap, slots)` pair the Go code reads. -/

def Wheel : Nat → Type
  | 0 => Nat × (Fin 64 → List Nat)
  | n + 1 => Nat × (Fin 64 → Option (Wheel n))

/-- Build a level-0 wheel from its bitmap and entry slots. -/
def Wheel.leaf (bm : Nat) (entries : Fin 64 → List Nat) : Wheel 0 :=
  (bm, entries)

/-- Build a level-`(n+1)` wheel from its bitmap and sub-wheel slots. -/
def Wheel.node {n : Nat} (bm : Nat) (sub : Fin 64 → Option (Wheel n)) : Wheel (n + 1) :=
  (bm, sub)

/-- `NewWheel(level)`: a fresh wheel with zero bitmap and empty slots. -/
def newWheel : (n : Nat) → Wheel n
  | 0 => .leaf 0 fun _ => []
  | _ + 1 => .node 0 fun _ => none

/-- Read the `bitmap` field. -/
def bitmapOf : (n : Nat) → Wheel n → Nat
  | 0, w => w.1
  | _ + 1, w => w.1

/-- `Wheel.Empty()`: `bitmap == 0`. -/
def emptyW (n : Nat) (w : Wheel n) : Bool :=
  bitmapOf n w == 0

/-- `Wheel.MsPerSlot()` for a wheel of level `n` is `msPerSlot[n]`. -/
def msPerSlotOf (n : Nat) : Nat := msPerSlot n

/-- `Wheel.getIndex(interval)`:
level 0 returns `interval & SlotMask`, level > 0 returns
`(interval & mask[level]) >> shift[level]`. -/
def getIndex (level interval : Nat) : Nat :=
  if level = 0 then interval &&& SlotMask
  else (interval &&& mask level) >>> shift level

/-- `Wheel.AddEntry(entry, interval)`.  At level 0 the entry is prepended to
the slot list and the bit set; at level > 0 a missing child is created (and
the bit set) before recursing with the same `interval`. -/
def addEntry : (n : Nat) → Wheel n → Nat → Nat → Wheel n
  | 0, w, e, interval =>
      let index := getIndex 0 interval
      .leaf (w.1 ||| (1 <<< index)) (updF w.2 index (e :: getF w.2 index []))
  | n + 1, w, e, interval =>
      let index := getIndex (n + 1) interval
      match getF w.2 index none with
      | none =>
          .node (w.1 ||| (1 <<< index))
            (updF w.2 index (some (addEntry n (newWheel n) e interval)))
      | some c => .node w.1 (updF w.2 index (some (addEntry n c e interval)))

/-- The inner walk of `Wheel.RemoveEntry` at level 0 when the entry is not the
slot head: advance `cur` until `getNext(cur) == entry`, then unlink it.
Removes the first occurrence; on an absent entry the Go walk dereferences nil
(unreachable when the entry is present). -/
def removeFirst : List Nat → Nat → List Nat
  | [], _ => []
  | h :: t, e => if h = e then t else h :: removeFirst t e

/-- `Wheel.RemoveEntry(entry, interval)`.  At level 0: if the entry is the
slot head, pop it and clear the bit when the slot empties; otherwise unlink it
from the list (the bit stays set).  At level > 0: recurse into the child and
drop it (clearing the bit) if it emptied.  The Go code dereferences nil when
the entry (or the child on its path) is absent; those branches return the
wheel unchanged here and are unreachable under `presentAt`. -/
def removeEntry : (n : Nat) → Wheel n → Nat → Nat → Wheel n
  | 0, w, e, interval =>
      let index := getIndex 0 interval
      match getF w.2 index [] with
      | [] => w
      | h :: t =>
          if h = e then
            .leaf (if t = [] then clearBit w.1 index else w.1) (updF w.2 index t)
          else
            .leaf w.1 (updF w.2 index (h :: removeFirst t e))
  | n + 1, w, e, interval =>
      let index := getIndex (n + 1) interval
      match getF w.2 index none with
      | none => w
      | some c =>
          let c' := removeEntry n c e interval
          if bitmapOf n c' = 0 then .node (clearBit w.1 index) (updF w.2 index none)
          else .node w.1 (updF w.2 index (some c'))

/-- Whether entry `e` with interval `d` sits on the slot path the Go
`RemoveEntry(e, d)` walks (the precondition under which that walk is safe). -/
def presentAt : (n : Nat) → Wheel n → Nat → Nat → Bool
  | 0, w, e, interval => (getF w.2 (getIndex 0 interval) []).contains e
  | n + 1, w, e, interval =>
      match getF w.2 (getIndex (n + 1) interval) none with
      | none => false
      | some c => presentAt n c e interval

/-- `Wheel.LevelUp()` / `NewWheelWithChild`: wrap the wheel as the sole
slot-0 child of a new wheel one level up, with `bitmap = 1`. -/
def levelUp {n : Nat} (w : Wheel n) : Wheel (n + 1) :=
  .node 1 fun i => if i.val = 0 then some w else none

/-- `Wheel.CanLevelDown()`: `bitmap == 1 && level > 0`. -/
def canLevelDown (n : Nat) (w : Wheel n) : Bool :=
  (bitmapOf n w == 1) && (0 < n)

/-- `Wheel.LevelDown()` on a wheel of level `n + 1`: return `subWheels[0]`
(the source returns nil for a level-0 wheel, excluded here by the type). -/
def levelDownSub {n : Nat} (w : Wheel (n + 1)) : Option (Wheel n) :=
  w.2 0

/-- `Wheel.Rotate(n)`: no-op for `n == 0 || n >= SlotSize`; otherwise shift
slots left by `n` (`slot[i-n] ← slot[i]`, tail nilled) and `bitmap >>= n`. -/
def rotate : (n : Nat) → Wheel n → Nat → Wheel n
  | 0, w, k =>
      if k = 0 ∨ 64 ≤ k then w
      else
        .leaf (w.1 >>> k)
          (fun i => if h : i.val + k < 64 then w.2 ⟨i.val + k, h⟩ else [])
  | _ + 1, w, k =>
      if k = 0 ∨ 64 ≤ k then w
      else
        .node (w.1 >>> k)
          (fun i => if h : i.val + k < 64 then w.2 ⟨i.val + k, h⟩ else none)

/-- All entry ids stored anywhere in the wheel (leaf slots, in slot order). -/
def entriesOf : (n : Nat) → Wheel n → List Nat
  | 0, w => ((List.finRange 64).map w.2).flatten
  | n + 1, w =>
      ((List.finRange 64).map fun i =>
        match w.2 i with
        | none => []
        | some c => entriesOf n c).flatten

/-- `Wheel.NextExpirationTime()`: `^uint64(0)` when empty; the first set bit's
index at level 0; `index*msPerSlot[level] + child.NextExpirationTime()`
(uint64 arithmetic, hence `% 2^64`) at level > 0.  A nil child at the first
set bit would make the Go code dereference nil (unreachable for faithful
wheels); that branch returns 0 here. -/
def nextExpirationTime : (n : Nat) → Wheel n → Nat
  | 0, w => if w.1 = 0 then 2 ^ 64 - 1 else ctz64 w.1
  | n + 1, w =>
      if w.1 = 0 then 2 ^ 64 - 1
      else
        let index := ctz64 w.1
        match getF w.2 index none with
        | none => 0
        | some c => (index * msPerSlot (n + 1) + nextExpirationTime n c) % 2 ^ 64

/-! ## The expiry scan (source: `Wheel.HandleExpiredEntries`)

The Go method is a single loop `for w.bitmap != 0` over the trailing-zero
index of the live bitmap, with distinct level-0 / level-> 0 bodies; the result
triple is `(updated wheel, count, fired entry ids in dispatch order)` where
`fired` records the `handler(entry)` calls.  Each continuing iteration clears
the current lowest set bit, so a `uint64` bitmap supports at most 64
iterations; the loops below carry that bound as explicit fuel (64). -/

/-- Inner level-0 loop `for w.entries[index] != nil { ... handler(entry) ... }`:
drain a slot list head-first, counting and recording each dispatched entry. -/
def drainSlot : List Nat → Nat → List Nat → Nat × List Nat
  | [], cnt, fired => (cnt, fired)
  | e :: rest, cnt, fired => drainSlot rest (cnt + 1) (fired ++ [e])

/-- Scan state: current slots, bitmap, dispatched count, dispatch trace. -/
structure Scan (σ : Type) where
  slots : σ
  bm : Nat
  cnt : Nat
  fired : List Nat

/-- The level-0 expiry loop: stop when the lowest set index exceeds
`remainingMs`, otherwise fire the whole slot, clear it and its bit, continue. -/
def handleLeafLoop : Nat → (Fin 64 → List Nat) → Nat → Nat → Nat → List Nat →
    Scan (Fin 64 → List Nat)
  | 0, entries, bm, _, cnt, fired => ⟨entries, bm, cnt, fired⟩
  | fuel + 1, entries, bm, rem, cnt, fired =>
      if bm = 0 then ⟨entries, bm, cnt, fired⟩
      else
        let index := ctz64 bm
        if rem < index then ⟨entries, bm, cnt, fired⟩
        else
          let d := drainSlot (getF entries index []) cnt fired
          handleLeafLoop fuel (updF entries index []) (clearBit bm index) rem d.1 d.2

/-- The level-> 0 expiry loop (children at level `lvl`, wheel at `lvl + 1`):
stop when `index * msPerSlot[level] > remainingMs`, otherwise recurse into the
child with the reduced budget; drop an emptied child and continue, stop the
scan on a non-emptied child.  A nil child would be a Go nil dereference
(unreachable for faithful wheels); it stops the scan here. -/
def handleNodeLoop (lvl : Nat) (child : Wheel lvl → Nat → Wheel lvl × Nat × List Nat) :
    Nat → (Fin 64 → Option (Wheel lvl)) → Nat → Nat → Nat → List Nat →
      Scan (Fin 64 → Option (Wheel lvl))
  | 0, sub, bm, _, cnt, fired => ⟨sub, bm, cnt, fired⟩
  | fuel + 1, sub, bm, rem, cnt, fired =>
      if bm = 0 then ⟨sub, bm, cnt, fired⟩
      else
        let index := ctz64 bm
        let slotMs := index * msPerSlot (lvl + 1)
        if rem < slotMs then ⟨sub, bm, cnt, fired⟩
        else
          match getF sub index none with
          | none => ⟨sub, bm, cnt, fired⟩
          | some c =>
              let r := child c (rem - slotMs)
              if bitmapOf lvl r.1 = 0 then
                handleNodeLoop lvl child fuel (updF sub index none) (clearBit bm index)
                  rem (cnt + r.2.1) (fired ++ r.2.2)
              else ⟨updF sub index (some r.1), bm, cnt + r.2.1, fired ++ r.2.2⟩

/-- `Wheel.HandleExpiredEntries(handler, remainingMs)`: returns the updated
wheel, the dispatched count and the dispatch trace. -/
def handleExpired : (n : Nat) → Wheel n → Nat → Wheel n × Nat × List Nat
  | 0, w, rem =>
      let r := handleLeafLoop 64 w.2 w.1 rem 0 []
      (.leaf r.bm r.slots, r.cnt, r.fired)
  | n + 1, w, rem =>
      let r := handleNodeLoop n (handleExpired n) 64 w.2 w.1 rem 0 []
      (.node r.bm r.slots, r.cnt, r.fired)

/-! ## The expiry scan as the spec words it

§4.2 "Expire scan": iterate the set bits of `bitmap` from least to most
significant; at level 0 stop at the first set index `> remaining_ms` and
otherwise fire the slot in list order, clear slot and bit, continue; at
level > 0 stop when `index·ms_per_slot > remaining_ms` and otherwise recurse
with the reduced budget, dropping an emptied child (clear bit, continue) and
stopping on a non-emptied one.  The definitions below walk the precomputed
least-to-most list `setBits bitmap`. -/

/-- Spec-worded level-0 scan over the set-bit index list. -/
def specLeaf : List Nat → (Fin 64 → List Nat) → Nat → Nat →
    (Fin 64 → List Nat) × Nat × List Nat
  | [], entries, bm, _ => (entries, bm, [])
  | i :: rest, entries, bm, rem =>
      if rem < i then (entries, bm, [])
      else
        let r := specLeaf rest (updF entries i []) (clearBit bm i) rem
        (r.1, r.2.1, getF entries i [] ++ r.2.2)

/-- Spec-worded level-> 0 scan over the set-bit index list. -/
def specNode (lvl : Nat) (child : Wheel lvl → Nat → Wheel lvl × List Nat) :
    List Nat → (Fin 64 → Option (Wheel lvl)) → Nat → Nat →
      (Fin 64 → Option (Wheel lvl)) × Nat × List Nat
  | [], sub, bm, _ => (sub, bm, [])
  | i :: rest, sub, bm, rem =>
      let slotMs := i * msPerSlot (lvl + 1)
      if rem < slotMs then (sub, bm, [])
      else
        match getF sub i none with
        | none => (sub, bm, [])
        | some c =>
            let rc := child c (rem - slotMs)
            if bitmapOf lvl rc.1 = 0 then
              let r := specNode lvl child rest (updF sub i none) (clearBit bm i) rem
              (r.1, r.2.1, rc.2 ++ r.2.2)
            else (updF sub i (some rc.1), bm, rc.2)

/-- Spec-worded expire scan; returns the updated wheel and the dispatch
trace (its length is the dispatched count). -/
def specScan : (n : Nat) → Wheel n → Nat → Wheel n × List Nat
  | 0, w, rem =>
      let r := specLeaf (setBits w.1) w.2 w.1 rem
      (.leaf r.2.1 r.1, r.2.2)
  | n + 1, w, rem =>
      let r := specNode n (specScan n) (setBits w.1) w.2 w.1 rem
      (.node r.2.1 r.1, r.2.2)

/-! ## Bitmap faithfulness (§8 invariant 1) -/

/-- Bitmap faithfulness: bit `i` is set iff slot `i` is non-empty; at
level > 0 every present child is recursively faithful and non-empty
("a sub-wheel is removed when it empties").  The `uint64` bound on the
bitmap is part of the representation. -/
def Faithful : (n : Nat) → Wheel n → Prop
  | 0, w => w.1 < 2 ^ 64 ∧ ∀ i : Fin 64, (w.1.testBit i.val = true ↔ w.2 i ≠ [])
  | n + 1, w =>
      w.1 < 2 ^ 64 ∧ ∀ i : Fin 64,
        (w.1.testBit i.val = true ↔ (w.2 i).isSome = true) ∧
        ∀ c, w.2 i = some c → bitmapOf n c ≠ 0 ∧ Faithful n c

/-- Decidability helper for the per-child condition. -/
def decOptBind {α : Type} (o : Option α) (P : α → Prop) (hd : ∀ a, Decidable (P a)) :
    Decidable (∀ a, o = some a → P a) :=
  match o with
  | none => isTrue fun a h => by cases h
  | some x =>
      match hd x with
      | isTrue hp => isTrue fun a h => by cases h; exact hp
      | isFalse hp => isFalse fun hall => hp (hall x rfl)

instance faithfulDec : (n : Nat) → (w : Wheel n) → Decidable (Faithful n w)
  | 0, w => by unfold Faithful; infer_instance
  | n + 1, w => by
      unfold Faithful
      haveI : ∀ i : Fin 64, Decidable (∀ c, w.2 i = some c → bitmapOf n c ≠ 0 ∧ Faithful n c) :=
        fun i => decOptBind (w.2 i) _ fun c => @instDecidableAnd _ _ _ (faithfulDec n c)
      infer_instance

/-! ## Entry (source: `Entry` struct, `Execute`, `Cancel`)

An entry's cross-thread state is its atomic `removed` flag plus whether its
`callback` is non-nil.  `Execute` reads the flag before any invocation:
`if !e.removed.Load() && e.callback != nil { e.callback() }`. -/

structure EntrySt where
  removed : Bool
  hasCallback : Bool

/-- `Entry.Cancel()`: `e.removed.Store(true)`. -/
def entryCancel (e : EntrySt) : EntrySt :=
  { e with removed := true }

/-- `Entry.Execute()`: returns whether the callback was invoked (its
invocation count: `true` = once, `false` = zero times). -/
def entryExecute (e : EntrySt) : Bool :=
  !e.removed && e.hasCallback

/-- `Entry.IsCanceled()`: `e.removed.Load()`. -/
def entryIsCanceled (e : EntrySt) : Bool :=
  e.removed

/-! ## MPSC queue (source: `MPSCQueue`)

The queue is the intrusive chain hanging off the atomic `head`, modelled as
the list of entry ids from head onward (most recently pushed first).  The
claims here concern completed pushes, so the mid-push `settingNext` sentinel
window is already closed in every modelled state. -/

/-- `MPSCQueue.Push`: swap `head` to the new entry, link its `next` to the
old head (cons), and report whether the old head was nil. -/
def push (q : List Nat) (e : Nat) : List Nat × Bool :=
  (e :: q, q.isEmpty)

/-- The chain-reversal walk of `MPSCQueue.PopAll`:
`next := load(curr.next); curr.next := prev; prev := curr; curr := next`. -/
def popAllLoop : List Nat → List Nat → List Nat
  | [], prev => prev
  | c :: rest, prev => popAllLoop rest (c :: prev)

/-- `MPSCQueue.PopAll`: swap `head` to nil and reverse the chain. -/
def popAll (q : List Nat) : List Nat :=
  popAllLoop q []

/-- The consumer walk of `MPSCQueue.DrainAll`: apply `fn` to each entry of
the popped chain in order; returns the order `fn` saw and the count. -/
def drainAllLoop : List Nat → List Nat → Nat → List Nat × Nat
  | [], trace, count => (trace, count)
  | h :: rest, trace, count => drainAllLoop rest (trace ++ [h]) (count + 1)

/-- `MPSCQueue.DrainAll(fn)`. -/
def drainAll (q : List Nat) : List Nat × Nat :=
  drainAllLoop (popAll q) [] 0

/-- A sequence of completed pushes, oldest first. -/
def pushAll (q : List Nat) (ps : List Nat) : List Nat :=
  ps.foldl (fun acc e => (push acc e).1) q

/-! ## Timer (source: `Timer`, `AddEntryAt`, `Stop`, `maintenance`)

Only the driver state the claims touch is modelled: the queue contents, the
`running` flag and the `sleepUntil` horizon.  `AddEntryAt` allocates the
entry, pushes it, and signals the wake channel when the push transitioned the
queue from empty or the new deadline undercuts the sleep horizon — it never
consults `running` and has no error return. -/

structure TimerSt where
  queue : List Nat
  running : Bool
  sleepUntil : Nat

/-- `Timer.Stop()`: clears `running` (and joins the worker). -/
def timerStop (st : TimerSt) : TimerSt :=
  { st with running := false }

/-- `Timer.AddEntryAt(expireAt, callback)`: push the new entry, decide the
wake signal, return the entry as the handle.  Result: (new state, wake
signalled, returned handle). -/
def timerAddEntryAt (st : TimerSt) (e : Nat) (expireAt : Nat) : TimerSt × Bool × Nat :=
  let p := push st.queue e
  let wake := p.2 || (decide (0 < st.sleepUntil) && decide (expireAt < st.sleepUntil))
  ({ st with queue := p.1 }, wake, e)

/-- `Timer.levelUpAndAdd(entry, interval)`: level up while
`interval >= wheel.MaxMs() && wheel.Level() < MaxLevel`, then insert.  The
result carries the final root level. -/
def levelUpAndAdd (n : Nat) (w : Wheel n) (e : Nat) (interval : Nat) :
    (m : Nat) × Wheel m :=
  if maxMs n ≤ interval ∧ n < MaxLevel then
    levelUpAndAdd (n + 1) (levelUp w) e interval
  else
    ⟨n, addEntry n w e interval⟩
termination_by MaxLevel - n

/-- The level-selection loop of `Timer.buildWheelAndAdd`:
`for level < MaxLevel { if interval < maxMs[level] { break }; level++ }`. -/
def chooseLevelLoop : Nat → Nat → Nat → Nat
  | 0, level, _ => level
  | fuel + 1, level, interval =>
      if level < MaxLevel then
        if interval < maxMs level then level
        else chooseLevelLoop fuel (level + 1) interval
      else level

/-- The level chosen by `Timer.buildWheelAndAdd` starting at level 0 (the
loop runs at most `MaxLevel` times). -/
def chooseLevel (interval : Nat) : Nat :=
  chooseLevelLoop MaxLevel 0 interval

/-- The rotate-and-advance step of `Timer.maintenance` (lines 195-199):
`n := interval / wheel.MsPerSlot(); if n > 0 { wheel.Rotate(n); start += n *
wheel.MsPerSlot() }`.  Result: (wheel, start). -/
def maintRotate (n : Nat) (w : Wheel n) (start interval : Nat) : Wheel n × Nat :=
  let k := interval / msPerSlot n
  if 0 < k then (rotate n w k, start + k * msPerSlot n) else (w, start)

/-! ## Bit-level lemmas -/

theorem ctzAux_spec : ∀ (f x : Nat), 0 < x → x < 2 ^ f →
    x.testBit (ctzAux f x) = true ∧ ctzAux f x < f ∧
      ∀ j < ctzAux f x, x.testBit j = false := by
  intro f
  induction f with
  | zero => intro x hx hlt; simp at hlt; omega
  | succ f ih =>
      intro x hx hlt
      by_cases hpar : x % 2 = 1
      · refine ⟨?_, ?_, ?_⟩
        · simp [ctzAux, hpar]
        · simp [ctzAux, hpar]
        · simp [ctzAux, hpar]
      · have hx2 : 0 < x / 2 := by omega
        have hlt2 : x / 2 < 2 ^ f := by
          rw [pow_succ] at hlt; omega
        obtain ⟨h1, h2, h3⟩ := ih (x / 2) hx2 hlt2
        have hctz : ctzAux (f + 1) x = ctzAux f (x / 2) + 1 := by
          simp [ctzAux, hpar]
        refine ⟨?_, ?_, ?_⟩
        · rw [hctz, Nat.testBit_add_one]; exact h1
        · omega
        · intro j hj
          rw [hctz] at hj
          match j with
          | 0 => simp [Nat.testBit_zero]; omega
          | j' + 1 =>
              rw [Nat.testBit_add_one]
              exact h3 j' (by omega)

theorem ctz64_testBit {x : Nat} (h0 : x ≠ 0) (h64 : x < 2 ^ 64) :
    x.testBit (ctz64 x) = true :=
  (ctzAux_spec 64 x (Nat.pos_of_ne_zero h0) h64).1

theorem ctz64_lt {x : Nat} (h0 : x ≠ 0) (h64 : x < 2 ^ 64) : ctz64 x < 64 :=
  (ctzAux_spec 64 x (Nat.pos_of_ne_zero h0) h64).2.1

theorem ctz64_min {x : Nat} (h64 : x < 2 ^ 64) : ∀ j < ctz64 x, x.testBit j = false := by
  rcases Nat.eq_zero_or_pos x with rfl | hx
  · intro j _; exact Nat.zero_testBit j
  · exact (ctzAux_spec 64 x hx h64).2.2

theorem testBit_clearBit (bm i j : Nat) :
    (clearBit bm i).testBit j = if j = i then false else bm.testBit j := by
  unfold clearBit
  by_cases hb : bm.testBit i
  · rw [if_pos hb, Nat.testBit_xor, Nat.one_shiftLeft]
    by_cases hij : j = i
    · subst hij; simp [Nat.testBit_two_pow_self, hb]
    · simp [hij, Nat.testBit_two_pow_of_ne (fun h => hij h.symm)]
  · rw [if_neg hb]
    by_cases hij : j = i
    · subst hij
      simp only [if_pos rfl]
      exact Bool.eq_false_iff.mpr hb
    · simp [hij]

theorem clearBit_lt_two_pow {bm : Nat} (h : bm < 2 ^ 64) (i : Nat) :
    clearBit bm i < 2 ^ 64 := by
  apply Nat.lt_pow_two_of_testBit
  intro j hj
  rw [testBit_clearBit]
  by_cases hij : j = i
  · simp [hij]
  · simp only [hij, if_false]
    exact Nat.testBit_lt_two_pow (lt_of_lt_of_le h (Nat.pow_le_pow_right (by omega) hj))

theorem testBit_high {bm : Nat} (h : bm < 2 ^ 64) {j : Nat} (hj : 64 ≤ j) :
    bm.testBit j = false :=
  Nat.testBit_lt_two_pow (lt_of_lt_of_le h (Nat.pow_le_pow_right (by omega) hj))

theorem setBits_zero : setBits 0 = [] := by
  simp [setBits]

theorem length_setBits_le (bm : Nat) : (setBits bm).length ≤ 64 := by
  calc (setBits bm).length ≤ (List.range 64).length := List.length_filter_le _ _
    _ = 64 := List.length_range 64

theorem filter_range_eq_cons {N i : Nat} {p : Nat → Bool} (hi : i < N) (hp : p i = true)
    (hlt : ∀ j < i, p j = false) :
    (List.range N).filter p =
      i :: (List.range N).filter fun j => p j && decide (j ≠ i) := by
  have hN : N = i + (N - i) := by omega
  rw [hN, List.range_add, List.filter_append, List.filter_append]
  have hlow : (List.range i).filter p = [] := by
    rw [List.filter_eq_nil_iff]
    intro a ha
    rw [hlt a (List.mem_range.mp ha)]; simp
  have hlow' : ((List.range i).filter fun j => p j && decide (j ≠ i)) = [] := by
    rw [List.filter_eq_nil_iff]
    intro a ha
    rw [hlt a (List.mem_range.mp ha)]; simp
  rw [hlow, hlow', List.nil_append, List.nil_append]
  have hNi : N - i = (N - i - 1) + 1 := by omega
  rw [hNi, List.range_succ_eq_map, List.map_cons]
  rw [List.filter_cons_of_pos (by simpa using hp)]
  rw [List.filter_cons_of_neg (by simp)]
  congr 1
  apply List.filter_congr
  intro a ha
  obtain ⟨b, hb, rfl⟩ := List.mem_map.mp ha
  obtain ⟨x, _, rfl⟩ := List.mem_map.mp hb
  have hne : i + Nat.succ x ≠ i := by omega
  simp [hne]

theorem setBits_cons {bm : Nat} (h0 : bm ≠ 0) (h64 : bm < 2 ^ 64) :
    setBits bm = ctz64 bm :: setBits (clearBit bm (ctz64 bm)) := by
  unfold setBits
  rw [filter_range_eq_cons (ctz64_lt h0 h64) (ctz64_testBit h0 h64) (ctz64_min h64)]
  congr 1
  apply List.filter_congr
  intro a _
  rw [testBit_clearBit]
  by_cases hai : a = ctz64 bm
  · simp [hai]
  · simp [hai]

theorem setBits_eq_nil {bm : Nat} (h64 : bm < 2 ^ 64) : setBits bm = [] ↔ bm = 0 := by
  constructor
  · intro h
    by_contra h0
    rw [setBits_cons h0 h64] at h
    exact List.cons_ne_nil _ _ h
  · rintro rfl; exact setBits_zero

/-! ## Structural lemmas about slots and indices -/

theorem getF_eq_of_lt {α : Type} (f : Fin 64 → α) {i : Nat} (h : i < 64) (d : α) :
    getF f i d = f ⟨i, h⟩ :=
  dif_pos h

theorem updF_self {α : Type} (f : Fin 64 → α) {i : Nat} (h : i < 64) (v : α) :
    updF f i v ⟨i, h⟩ = v := by
  simp [updF]

theorem updF_other {α : Type} (f : Fin 64 → α) {i : Nat} (v : α) {j : Fin 64}
    (h : j.val ≠ i) : updF f i v j = f j := by
  simp [updF, h]

theorem and_shiftLeft_shiftRight_le (d c s : Nat) : (d &&& (c <<< s)) >>> s ≤ c := by
  rw [Nat.shiftRight_eq_div_pow, Nat.shiftLeft_eq]
  calc (d &&& c * 2 ^ s) / 2 ^ s ≤ (c * 2 ^ s) / 2 ^ s :=
        Nat.div_le_div_right Nat.and_le_right
    _ = c := Nat.mul_div_cancel _ (Nat.pos_pow_of_pos s (by omega))

theorem getIndex_lt (l d : Nat) : getIndex l d < 64 := by
  match l with
  | 0 =>
      show d &&& SlotMask < 64
      have h : d &&& SlotMask ≤ 63 := Nat.and_le_right
      omega
  | 1 =>
      show (d &&& (0x3F <<< 6)) >>> 6 < 64
      exact lt_of_le_of_lt (and_shiftLeft_shiftRight_le d 0x3F 6) (by norm_num)
  | 2 =>
      show (d &&& (0x3F <<< 12)) >>> 12 < 64
      exact lt_of_le_of_lt (and_shiftLeft_shiftRight_le d 0x3F 12) (by norm_num)
  | 3 =>
      show (d &&& (0x3F <<< 18)) >>> 18 < 64
      exact lt_of_le_of_lt (and_shiftLeft_shiftRight_le d 0x3F 18) (by norm_num)
  | 4 =>
      show (d &&& (0x3F <<< 24)) >>> 24 < 64
      exact lt_of_le_of_lt (and_shiftLeft_shiftRight_le d 0x3F 24) (by norm_num)
  | 5 =>
      show (d &&& (0x3F <<< 30)) >>> 30 < 64
      exact lt_of_le_of_lt (and_shiftLeft_shiftRight_le d 0x3F 30) (by norm_num)
  | 6 =>
      show (d &&& (0x3F <<< 36)) >>> 36 < 64
      exact lt_of_le_of_lt (and_shiftLeft_shiftRight_le d 0x3F 36) (by norm_num)
  | l + 7 =>
      show (d &&& mask (l + 7)) >>> shift (l + 7) < 64
      have h1 : mask (l + 7) = 0 := rfl
      have h2 : shift (l + 7) = 0 := rfl
      rw [h1, h2]
      simp

theorem two_pow_lt_two_pow_64 {i : Nat} (h : i < 64) : 2 ^ i < 2 ^ 64 :=
  Nat.pow_lt_pow_right (by omega) h

/-- `NewWheel` is faithful: zero bitmap, all slots empty. -/
theorem newWheel_faithful (n : Nat) : Faithful n (newWheel n) := by
  match n with
  | 0 =>
      refine ⟨by show (0 : Nat) < 2 ^ 64; norm_num, fun i => ?_⟩
      simp [newWheel, Wheel.leaf]
  | n + 1 =>
      refine ⟨by show (0 : Nat) < 2 ^ 64; norm_num, fun i => ?_⟩
      refine ⟨by simp [newWheel, Wheel.node], fun c hc => ?_⟩
      simp [newWheel, Wheel.node] at hc

/-! ## AddEntry preserves faithfulness -/

theorem or_shift_ne_zero (bm i : Nat) : bm ||| 1 <<< i ≠ 0 := by
  intro h
  have hbit : (bm ||| 1 <<< i).testBit i = true := by
    rw [Nat.testBit_or, Nat.one_shiftLeft, Nat.testBit_two_pow_self]
    simp
  rw [h] at hbit
  simp at hbit

theorem ne_zero_of_testBit {x i : Nat} (h : x.testBit i = true) : x ≠ 0 := by
  intro h0
  rw [h0] at h
  simp at h

theorem addEntry_zero_eq (w : Wheel 0) (e d : Nat) :
    addEntry 0 w e d = Wheel.leaf (w.1 ||| 1 <<< getIndex 0 d)
      (updF w.2 (getIndex 0 d) (e :: getF w.2 (getIndex 0 d) [])) :=
  rfl

theorem addEntry_succ_none {n : Nat} (w : Wheel (n + 1)) (e d : Nat)
    (hidx : getIndex (n + 1) d < 64)
    (hc : w.2 ⟨getIndex (n + 1) d, hidx⟩ = none) :
    addEntry (n + 1) w e d = Wheel.node (w.1 ||| 1 <<< getIndex (n + 1) d)
      (updF w.2 (getIndex (n + 1) d) (some (addEntry n (newWheel n) e d))) := by
  show (match getF w.2 (getIndex (n + 1) d) none with
    | none => Wheel.node (w.1 ||| 1 <<< getIndex (n + 1) d)
        (updF w.2 (getIndex (n + 1) d) (some (addEntry n (newWheel n) e d)))
    | some c => Wheel.node w.1
        (updF w.2 (getIndex (n + 1) d) (some (addEntry n c e d)))) = _
  rw [getF_eq_of_lt w.2 hidx none, hc]

theorem addEntry_succ_some {n : Nat} (w : Wheel (n + 1)) (e d : Nat) (c : Wheel n)
    (hidx : getIndex (n + 1) d < 64)
    (hc : w.2 ⟨getIndex (n + 1) d, hidx⟩ = some c) :
    addEntry (n + 1) w e d = Wheel.node w.1
      (updF w.2 (getIndex (n + 1) d) (some (addEntry n c e d))) := by
  show (match getF w.2 (getIndex (n + 1) d) none with
    | none => Wheel.node (w.1 ||| 1 <<< getIndex (n + 1) d)
        (updF w.2 (getIndex (n + 1) d) (some (addEntry n (newWheel n) e d)))
    | some c => Wheel.node w.1
        (updF w.2 (getIndex (n + 1) d) (some (addEntry n c e d)))) = _
  rw [getF_eq_of_lt w.2 hidx none, hc]

theorem bitmapOf_leaf (bm : Nat) (entries : Fin 64 → List Nat) :
    bitmapOf 0 (Wheel.leaf bm entries) = bm :=
  rfl

theorem bitmapOf_node {n : Nat} (bm : Nat) (sub : Fin 64 → Option (Wheel n)) :
    bitmapOf (n + 1) (Wheel.node bm sub) = bm :=
  rfl

theorem addEntry_bitmap_pos : ∀ (n : Nat) (w : Wheel n) (e d : Nat),
    Faithful n w → bitmapOf n (addEntry n w e d) ≠ 0 := by
  intro n w e d hw
  match n with
  | 0 =>
      rw [addEntry_zero_eq, bitmapOf_leaf]
      exact or_shift_ne_zero w.1 (getIndex 0 d)
  | n + 1 =>
      have hidx : getIndex (n + 1) d < 64 := getIndex_lt (n + 1) d
      cases hc : w.2 ⟨getIndex (n + 1) d, hidx⟩ with
      | none =>
          rw [addEntry_succ_none w e d hidx hc, bitmapOf_node]
          exact or_shift_ne_zero w.1 (getIndex (n + 1) d)
      | some c =>
          rw [addEntry_succ_some w e d c hidx hc, bitmapOf_node]
          have hbit : w.1.testBit (getIndex (n + 1) d) = true :=
            (hw.2 ⟨getIndex (n + 1) d, hidx⟩).1.mpr (by rw [hc]; rfl)
          exact ne_zero_of_testBit hbit

theorem addEntry_faithful : ∀ (n : Nat) (w : Wheel n) (e d : Nat),
    Faithful n w → Faithful n (addEntry n w e d) := by
  intro n
  induction n with
  | zero =>
      intro w e d hw
      obtain ⟨hbm, hslots⟩ := hw
      have hidx : getIndex 0 d < 64 := getIndex_lt 0 d
      rw [addEntry_zero_eq]
      refine ⟨?_, fun i => ?_⟩
      · exact Nat.or_lt_two_pow hbm
          (by rw [Nat.one_shiftLeft]; exact two_pow_lt_two_pow_64 hidx)
      · show ((w.1 ||| 1 <<< getIndex 0 d).testBit i.val = true ↔
          updF w.2 (getIndex 0 d) (e :: getF w.2 (getIndex 0 d) []) i ≠ [])
        rw [Nat.testBit_or, Nat.one_shiftLeft]
        by_cases hij : i.val = getIndex 0 d
        · rw [hij, Nat.testBit_two_pow_self]
          have hupd : updF w.2 (getIndex 0 d) (e :: getF w.2 (getIndex 0 d) []) i =
              e :: getF w.2 (getIndex 0 d) [] := by
            simp [updF, hij]
          rw [hupd]
          simp
        · rw [Nat.testBit_two_pow_of_ne fun h => hij h.symm, updF_other _ _ hij]
          simpa using hslots i
  | succ n ih =>
      intro w e d hw
      obtain ⟨hbm, hsub⟩ := hw
      have hidx : getIndex (n + 1) d < 64 := getIndex_lt (n + 1) d
      cases hc : w.2 ⟨getIndex (n + 1) d, hidx⟩ with
      | none =>
          rw [addEntry_succ_none w e d hidx hc]
          refine ⟨?_, fun i => ?_⟩
          · exact Nat.or_lt_two_pow hbm
              (by rw [Nat.one_shiftLeft]; exact two_pow_lt_two_pow_64 hidx)
          · constructor
            · show ((w.1 ||| 1 <<< getIndex (n + 1) d).testBit i.val = true ↔
                (updF w.2 (getIndex (n + 1) d)
                  (some (addEntry n (newWheel n) e d)) i).isSome = true)
              rw [Nat.testBit_or, Nat.one_shiftLeft]
              by_cases hij : i.val = getIndex (n + 1) d
              · rw [hij, Nat.testBit_two_pow_self]
                simp [updF, hij]
              · rw [Nat.testBit_two_pow_of_ne fun h => hij h.symm, updF_other _ _ hij]
                simpa using (hsub i).1
            · intro c' hc'
              replace hc' : updF w.2 (getIndex (n + 1) d)
                  (some (addEntry n (newWheel n) e d)) i = some c' := hc'
              by_cases hij : i.val = getIndex (n + 1) d
              · have hfin : i = (⟨getIndex (n + 1) d, hidx⟩ : Fin 64) := Fin.ext hij
                rw [hfin, updF_self] at hc'
                cases Option.some.inj hc'
                exact ⟨addEntry_bitmap_pos n (newWheel n) e d (newWheel_faithful n),
                  ih (newWheel n) e d (newWheel_faithful n)⟩
              · rw [updF_other _ _ hij] at hc'
                exact (hsub i).2 c' hc'
      | some c =>
          have hcf : bitmapOf n c ≠ 0 ∧ Faithful n c :=
            (hsub ⟨getIndex (n + 1) d, hidx⟩).2 c hc
          rw [addEntry_succ_some w e d c hidx hc]
          refine ⟨hbm, fun i => ?_⟩
          constructor
          · show (w.1.testBit i.val = true ↔
              (updF w.2 (getIndex (n + 1) d) (some (addEntry n c e d)) i).isSome = true)
            by_cases hij : i.val = getIndex (n + 1) d
            · have hfin : i = (⟨getIndex (n + 1) d, hidx⟩ : Fin 64) := Fin.ext hij
              rw [hfin, updF_self]
              simp only [Option.isSome_some, iff_true]
              exact (hsub ⟨getIndex (n + 1) d, hidx⟩).1.mpr (by rw [hc]; rfl)
            · rw [updF_other _ _ hij]
              exact (hsub i).1
          · intro c' hc'
            replace hc' : updF w.2 (getIndex (n + 1) d)
                (some (addEntry n c e d)) i = some c' := hc'
            by_cases hij : i.val = getIndex (n + 1) d
            · have hfin : i = (⟨getIndex (n + 1) d, hidx⟩ : Fin 64) := Fin.ext hij
              rw [hfin, updF_self] at hc'
              cases Option.some.inj hc'
              exact ⟨addEntry_bitmap_pos n c e d hcf.2, ih c e d hcf.2⟩
            · rw [updF_other _ _ hij] at hc'
              exact (hsub i).2 c' hc'

/-! ## Rotate, LevelUp and LevelDown preserve faithfulness -/

theorem shiftRight_le_self (x k : Nat) : x >>> k ≤ x := by
  rw [Nat.shiftRight_eq_div_pow]
  exact Nat.div_le_self x (2 ^ k)

theorem rotate_faithful (n : Nat) (w : Wheel n) (k : Nat) (hw : Faithful n w) :
    Faithful n (rotate n w k) := by
  match n with
  | 0 =>
      show Faithful 0 (if k = 0 ∨ 64 ≤ k then w else
        Wheel.leaf (w.1 >>> k)
          (fun i => if h : i.val + k < 64 then w.2 ⟨i.val + k, h⟩ else []))
      by_cases hk : k = 0 ∨ 64 ≤ k
      · rw [if_pos hk]; exact hw
      · rw [if_neg hk]
        obtain ⟨hbm, hslots⟩ := hw
        refine ⟨lt_of_le_of_lt (shiftRight_le_self _ _) hbm, fun i => ?_⟩
        show ((w.1 >>> k).testBit i.val = true ↔
          (if h : i.val + k < 64 then w.2 ⟨i.val + k, h⟩ else []) ≠ [])
        rw [Nat.testBit_shiftRight, Nat.add_comm k i.val]
        by_cases h : i.val + k < 64
        · rw [dif_pos h]
          exact hslots ⟨i.val + k, h⟩
        · rw [dif_neg h, testBit_high hbm (by omega)]
          simp
  | n + 1 =>
      show Faithful (n + 1) (if k = 0 ∨ 64 ≤ k then w else
        Wheel.node (w.1 >>> k)
          (fun i => if h : i.val + k < 64 then w.2 ⟨i.val + k, h⟩ else none))
      by_cases hk : k = 0 ∨ 64 ≤ k
      · rw [if_pos hk]; exact hw
      · rw [if_neg hk]
        obtain ⟨hbm, hsub⟩ := hw
        refine ⟨lt_of_le_of_lt (shiftRight_le_self _ _) hbm, fun i => ?_⟩
        constructor
        · show ((w.1 >>> k).testBit i.val = true ↔
            (if h : i.val + k < 64 then w.2 ⟨i.val + k, h⟩ else none).isSome = true)
          rw [Nat.testBit_shiftRight, Nat.add_comm k i.val]
          by_cases h : i.val + k < 64
          · rw [dif_pos h]
            exact (hsub ⟨i.val + k, h⟩).1
          · rw [dif_neg h, testBit_high hbm (by omega)]
            simp
        · intro c hc
          replace hc : (if h : i.val + k < 64 then w.2 ⟨i.val + k, h⟩ else none) =
              some c := hc
          by_cases h : i.val + k < 64
          · rw [dif_pos h] at hc
            exact (hsub ⟨i.val + k, h⟩).2 c hc
          · rw [dif_neg h] at hc
            cases hc

theorem levelUp_faithful {n : Nat} (w : Wheel n) (hw : Faithful n w)
    (hne : bitmapOf n w ≠ 0) : Faithful (n + 1) (levelUp w) := by
  refine ⟨by show (1 : Nat) < 2 ^ 64; norm_num, fun i => ?_⟩
  constructor
  · show ((1 : Nat).testBit i.val = true ↔
      (if i.val = 0 then some w else none).isSome = true)
    rw [Nat.testBit_one_eq_true_iff_self_eq_zero]
    by_cases h : i.val = 0
    · simp [h]
    · simp [h]
  · intro c hc
    replace hc : (if i.val = 0 then some w else none) = some c := hc
    by_cases h : i.val = 0
    · rw [if_pos h] at hc
      cases Option.some.inj hc
      exact ⟨hne, hw⟩
    · rw [if_neg h] at hc
      cases hc

theorem canLevelDown_faithful {n : Nat} (w : Wheel (n + 1))
    (hw : Faithful (n + 1) w) (h : canLevelDown (n + 1) w = true) :
    ∃ c, levelDownSub w = some c ∧ bitmapOf n c ≠ 0 ∧ Faithful n c := by
  have hbm : w.1 = 1 := by
    have := h
    simp only [canLevelDown, Bool.and_eq_true, beq_iff_eq] at this
    exact this.1
  have hbit : w.1.testBit 0 = true := by
    rw [hbm]
    exact Nat.testBit_one_eq_true_iff_self_eq_zero.mpr rfl
  have hsome : (w.2 ⟨0, by omega⟩).isSome = true := (hw.2 ⟨0, by omega⟩).1.mp hbit
  cases hc : w.2 ⟨0, by omega⟩ with
  | none => rw [hc] at hsome; cases hsome
  | some c =>
      refine ⟨c, ?_, (hw.2 ⟨0, by omega⟩).2 c hc⟩
      show w.2 0 = some c
      have : (0 : Fin 64) = ⟨0, by omega⟩ := rfl
      rw [this, hc]

/-! ## RemoveEntry preserves faithfulness -/

theorem removeEntry_faithful : ∀ (n : Nat) (w : Wheel n) (e d : Nat),
    Faithful n w → Faithful n (removeEntry n w e d) := by
  intro n
  induction n with
  | zero =>
      intro w e d hw
      obtain ⟨hbm, hslots⟩ := hw
      have hidx : getIndex 0 d < 64 := getIndex_lt 0 d
      show Faithful 0
        (match getF w.2 (getIndex 0 d) [] with
          | [] => w
          | h :: t =>
              if h = e then
                Wheel.leaf (if t = [] then clearBit w.1 (getIndex 0 d) else w.1)
                  (updF w.2 (getIndex 0 d) t)
              else Wheel.leaf w.1 (updF w.2 (getIndex 0 d) (h :: removeFirst t e)))
      split
      · exact ⟨hbm, hslots⟩
      · rename_i h t heq
        replace heq : w.2 ⟨getIndex 0 d, hidx⟩ = h :: t := by
          rw [← getF_eq_of_lt w.2 hidx []]; exact heq
        have hbit : w.1.testBit (getIndex 0 d) = true :=
          (hslots ⟨getIndex 0 d, hidx⟩).mpr (by rw [heq]; simp)
        split
        · -- h = e: pop the head
          split
          · -- t = []: slot empties, clear the bit
            rename_i ht
            refine ⟨clearBit_lt_two_pow hbm _, fun i => ?_⟩
            show ((clearBit w.1 (getIndex 0 d)).testBit i.val = true ↔
              updF w.2 (getIndex 0 d) t i ≠ [])
            rw [testBit_clearBit]
            by_cases hij : i.val = getIndex 0 d
            · have hfin : i = (⟨getIndex 0 d, hidx⟩ : Fin 64) := Fin.ext hij
              rw [if_pos hij, hfin, updF_self]
              simp [ht]
            · rw [if_neg hij, updF_other _ _ hij]
              exact hslots i
          · -- t ≠ []: bit stays set
            rename_i ht
            refine ⟨hbm, fun i => ?_⟩
            show (w.1.testBit i.val = true ↔ updF w.2 (getIndex 0 d) t i ≠ [])
            by_cases hij : i.val = getIndex 0 d
            · have hfin : i = (⟨getIndex 0 d, hidx⟩ : Fin 64) := Fin.ext hij
              rw [hfin, updF_self]
              simpa [hij] using ⟨fun _ => ht, fun _ => hbit⟩
            · rw [updF_other _ _ hij]
              exact hslots i
        · -- h ≠ e: unlink inside the list, slot stays non-empty
          refine ⟨hbm, fun i => ?_⟩
          show (w.1.testBit i.val = true ↔
            updF w.2 (getIndex 0 d) (h :: removeFirst t e) i ≠ [])
          by_cases hij : i.val = getIndex 0 d
          · have hfin : i = (⟨getIndex 0 d, hidx⟩ : Fin 64) := Fin.ext hij
            rw [hfin, updF_self]
            simpa [hij] using hbit
          · rw [updF_other _ _ hij]
            exact hslots i
  | succ n ih =>
      intro w e d hw
      obtain ⟨hbm, hsub⟩ := hw
      have hidx : getIndex (n + 1) d < 64 := getIndex_lt (n + 1) d
      show Faithful (n + 1)
        (match getF w.2 (getIndex (n + 1) d) none with
          | none => w
          | some c =>
              if bitmapOf n (removeEntry n c e d) = 0 then
                Wheel.node (clearBit w.1 (getIndex (n + 1) d))
                  (updF w.2 (getIndex (n + 1) d) none)
              else Wheel.node w.1
                (updF w.2 (getIndex (n + 1) d) (some (removeEntry n c e d))))
      split
      · exact ⟨hbm, hsub⟩
      · rename_i c heq
        replace heq : w.2 ⟨getIndex (n + 1) d, hidx⟩ = some c := by
          rw [← getF_eq_of_lt w.2 hidx none]; exact heq
        have hcf : bitmapOf n c ≠ 0 ∧ Faithful n c :=
          (hsub ⟨getIndex (n + 1) d, hidx⟩).2 c heq
        have hbit : w.1.testBit (getIndex (n + 1) d) = true :=
          (hsub ⟨getIndex (n + 1) d, hidx⟩).1.mpr (by rw [heq]; rfl)
        split
        · -- child emptied: drop it and clear the bit
          refine ⟨clearBit_lt_two_pow hbm _, fun i => ?_⟩
          constructor
          · show ((clearBit w.1 (getIndex (n + 1) d)).testBit i.val = true ↔
              (updF w.2 (getIndex (n + 1) d) none i).isSome = true)
            rw [testBit_clearBit]
            by_cases hij : i.val = getIndex (n + 1) d
            · have hfin : i = (⟨getIndex (n + 1) d, hidx⟩ : Fin 64) := Fin.ext hij
              rw [if_pos hij, hfin, updF_self]
              simp
            · rw [if_neg hij, updF_other _ _ hij]
              exact (hsub i).1
          · intro c' hc'
            replace hc' : updF w.2 (getIndex (n + 1) d) none i = some c' := hc'
            by_cases hij : i.val = getIndex (n + 1) d
            · have hfin : i = (⟨getIndex (n + 1) d, hidx⟩ : Fin 64) := Fin.ext hij
              rw [hfin, updF_self] at hc'
              cases hc'
            · rw [updF_other _ _ hij] at hc'
              exact (hsub i).2 c' hc'
        · -- child still non-empty: replace it in place, bit stays set
          rename_i hne
          refine ⟨hbm, fun i => ?_⟩
          constructor
          · show (w.1.testBit i.val = true ↔
              (updF w.2 (getIndex (n + 1) d) (some (removeEntry n c e d)) i).isSome = true)
            by_cases hij : i.val = getIndex (n + 1) d
            · have hfin : i = (⟨getIndex (n + 1) d, hidx⟩ : Fin 64) := Fin.ext hij
              rw [hfin, updF_self]
              simpa [hij] using hbit
            · rw [updF_other _ _ hij]
              exact (hsub i).1
          · intro c' hc'
            replace hc' : updF w.2 (getIndex (n + 1) d)
                (some (removeEntry n c e d)) i = some c' := hc'
            by_cases hij : i.val = getIndex (n + 1) d
            · have hfin : i = (⟨getIndex (n + 1) d, hidx⟩ : Fin 64) := Fin.ext hij
              rw [hfin, updF_self] at hc'
              cases Option.some.inj hc'
              exact ⟨hne, ih c e d hcf.2⟩
            · rw [updF_other _ _ hij] at hc'
              exact (hsub i).2 c' hc'

/-! ## `bitmap == 0` iff the wheel holds no entries -/

theorem bitmap_zero_iff_empty : ∀ (n : Nat) (w : Wheel n), Faithful n w →
    (bitmapOf n w = 0 ↔ entriesOf n w = []) := by
  intro n
  induction n with
  | zero =>
      intro w hw
      obtain ⟨hbm, hslots⟩ := hw
      show (w.1 = 0 ↔ ((List.finRange 64).map w.2).flatten = [])
      rw [List.flatten_eq_nil_iff]
      constructor
      · intro h0 l hl
        obtain ⟨i, _, rfl⟩ := List.mem_map.mp hl
        by_contra hne
        have hbit := (hslots i).mpr hne
        rw [h0, Nat.zero_testBit] at hbit
        cases hbit
      · intro hall
        apply Nat.eq_of_testBit_eq
        intro j
        rw [Nat.zero_testBit]
        by_cases hj : j < 64
        · by_contra hne
          have hbit : w.1.testBit j = true := by
            cases hb : w.1.testBit j with
            | true => rfl
            | false => rw [hb] at hne; exact absurd rfl hne
          have := (hslots ⟨j, hj⟩).mp hbit
          exact this (hall _ (List.mem_map.mpr ⟨⟨j, hj⟩, List.mem_finRange _, rfl⟩))
        · rw [testBit_high hbm (by omega)]
      | succ n ih =>
      intro w hw
      obtain ⟨hbm, hsub⟩ := hw
      show (w.1 = 0 ↔ ((List.finRange 64).map fun i =>
        match w.2 i with
        | none => []
        | some c => entriesOf n c).flatten = [])
      rw [List.flatten_eq_nil_iff]
      constructor
      · intro h0 l hl
        obtain ⟨i, _, rfl⟩ := List.mem_map.mp hl
        cases hc : w.2 i with
        | none => simp [hc]
        | some c =>
            have hbit := (hsub i).1.mpr (by rw [hc]; rfl)
            rw [h0, Nat.zero_testBit] at hbit
            cases hbit
      · intro hall
        apply Nat.eq_of_testBit_eq
        intro j
        rw [Nat.zero_testBit]
        by_cases hj : j < 64
        · cases hb : w.1.testBit j with
          | false => rfl
          | true =>
              have hsome := (hsub ⟨j, hj⟩).1.mp hb
              cases hc : w.2 ⟨j, hj⟩ with
              | none => rw [hc] at hsome; cases hsome
              | some c =>
                  have hcf := (hsub ⟨j, hj⟩).2 c hc
                  have hmem := hall (entriesOf n c)
                    (List.mem_map.mpr ⟨⟨j, hj⟩, List.mem_finRange _, by rw [hc]⟩)
                  have := (ih c hcf.2).mpr hmem
                  exact absurd this hcf.1
        · rw [testBit_high hbm (by omega)]

/-! ## The expiry scan: equivalence with the spec wording, level 0 -/

theorem drainSlot_eq : ∀ (l : List Nat) (cnt : Nat) (fired : List Nat),
    drainSlot l cnt fired = (cnt + l.length, fired ++ l) := by
  intro l
  induction l with
  | nil => intro cnt fired; simp [drainSlot]
  | cons e rest ih =>
      intro cnt fired
      show drainSlot rest (cnt + 1) (fired ++ [e]) = _
      rw [ih]
      simp only [Prod.mk.injEq, List.length_cons]
      exact ⟨by omega, by simp⟩

theorem specLeaf_cons_stop {i : Nat} {rest : List Nat} {entries : Fin 64 → List Nat}
    {bm rem : Nat} (h : rem < i) :
    specLeaf (i :: rest) entries bm rem = (entries, bm, []) := by
  simp [specLeaf, h]

theorem specLeaf_cons_go {i : Nat} {rest : List Nat} {entries : Fin 64 → List Nat}
    {bm rem : Nat} (h : ¬rem < i) :
    specLeaf (i :: rest) entries bm rem =
      ((specLeaf rest (updF entries i []) (clearBit bm i) rem).1,
       (specLeaf rest (updF entries i []) (clearBit bm i) rem).2.1,
       getF entries i [] ++ (specLeaf rest (updF entries i []) (clearBit bm i) rem).2.2) := by
  simp [specLeaf, h]

theorem clearSlot_faithful {bm : Nat} {entries : Fin 64 → List Nat} (i : Nat)
    (hw : Faithful 0 (Wheel.leaf bm entries)) :
    Faithful 0 (Wheel.leaf (clearBit bm i) (updF entries i [])) := by
  obtain ⟨hbm, hslots⟩ := hw
  refine ⟨clearBit_lt_two_pow hbm i, fun j => ?_⟩
  show ((clearBit bm i).testBit j.val = true ↔ updF entries i [] j ≠ [])
  rw [testBit_clearBit]
  by_cases hij : j.val = i
  · rw [if_pos hij]
    simp [updF, hij]
  · rw [if_neg hij, updF_other _ _ hij]
    exact hslots j

theorem specLeaf_faithful : ∀ (L : List Nat) (entries : Fin 64 → List Nat) (bm rem : Nat),
    Faithful 0 (Wheel.leaf bm entries) →
    Faithful 0 (Wheel.leaf (specLeaf L entries bm rem).2.1 (specLeaf L entries bm rem).1) := by
  intro L
  induction L with
  | nil => intro entries bm rem hw; exact hw
  | cons i rest ih =>
      intro entries bm rem hw
      by_cases hri : rem < i
      · rw [specLeaf_cons_stop hri]; exact hw
      · rw [specLeaf_cons_go hri]
        exact ih _ _ rem (clearSlot_faithful i hw)

theorem handleLeafLoop_stop_zero {fuel : Nat} {entries : Fin 64 → List Nat}
    {rem cnt : Nat} {fired : List Nat} :
    handleLeafLoop (fuel + 1) entries 0 rem cnt fired = ⟨entries, 0, cnt, fired⟩ := by
  simp [handleLeafLoop]

theorem handleLeafLoop_stop_far {fuel : Nat} {entries : Fin 64 → List Nat}
    {bm rem cnt : Nat} {fired : List Nat} (h0 : bm ≠ 0) (hfar : rem < ctz64 bm) :
    handleLeafLoop (fuel + 1) entries bm rem cnt fired = ⟨entries, bm, cnt, fired⟩ := by
  simp [handleLeafLoop, h0, hfar]

theorem handleLeafLoop_go {fuel : Nat} {entries : Fin 64 → List Nat}
    {bm rem cnt : Nat} {fired : List Nat} (h0 : bm ≠ 0) (hgo : ¬rem < ctz64 bm) :
    handleLeafLoop (fuel + 1) entries bm rem cnt fired =
      handleLeafLoop fuel (updF entries (ctz64 bm) []) (clearBit bm (ctz64 bm)) rem
        (cnt + (getF entries (ctz64 bm) []).length)
        (fired ++ getF entries (ctz64 bm) []) := by
  rw [handleLeafLoop, if_neg h0, if_neg hgo, drainSlot_eq]

theorem handleLeafLoop_eq_spec :
    ∀ (fuel : Nat) (entries : Fin 64 → List Nat) (bm rem cnt : Nat) (fired : List Nat),
    bm < 2 ^ 64 → (setBits bm).length ≤ fuel →
    handleLeafLoop fuel entries bm rem cnt fired =
      ⟨(specLeaf (setBits bm) entries bm rem).1,
       (specLeaf (setBits bm) entries bm rem).2.1,
       cnt + (specLeaf (setBits bm) entries bm rem).2.2.length,
       fired ++ (specLeaf (setBits bm) entries bm rem).2.2⟩ := by
  intro fuel
  induction fuel with
  | zero =>
      intro entries bm rem cnt fired hbm hlen
      have hnil : setBits bm = [] := List.length_eq_zero.mp (by omega)
      have h0 : bm = 0 := (setBits_eq_nil hbm).mp hnil
      subst h0
      rw [hnil]
      show Scan.mk entries 0 cnt fired = _
      simp [specLeaf]
  | succ fuel ih =>
      intro entries bm rem cnt fired hbm hlen
      by_cases h0 : bm = 0
      · subst h0
        rw [handleLeafLoop_stop_zero, setBits_zero]
        simp [specLeaf]
      · rw [setBits_cons h0 hbm]
        by_cases hfar : rem < ctz64 bm
        · rw [handleLeafLoop_stop_far h0 hfar, specLeaf_cons_stop hfar]
          simp
        · rw [handleLeafLoop_go h0 hfar, specLeaf_cons_go hfar]
          have hlen' : (setBits (clearBit bm (ctz64 bm))).length ≤ fuel := by
            rw [setBits_cons h0 hbm] at hlen
            simpa using hlen
          rw [ih _ _ rem _ _ (clearBit_lt_two_pow hbm _) hlen']
          simp only [Scan.mk.injEq, List.length_append, List.append_assoc, true_and, and_true]
          omega

/-! ## The expiry scan: equivalence with the spec wording, level > 0 -/

theorem getF_some_lt {α : Type} {f : Fin 64 → Option α} {i : Nat} {c : α}
    (h : getF f i none = some c) : ∃ hi : i < 64, f ⟨i, hi⟩ = some c := by
  unfold getF at h
  split at h
  · rename_i hi; exact ⟨hi, h⟩
  · cases h

theorem handleNodeLoop_stop_zero {lvl : Nat}
    {childA : Wheel lvl → Nat → Wheel lvl × Nat × List Nat} {fuel : Nat}
    {sub : Fin 64 → Option (Wheel lvl)} {rem cnt : Nat} {fired : List Nat} :
    handleNodeLoop lvl childA (fuel + 1) sub 0 rem cnt fired = ⟨sub, 0, cnt, fired⟩ := by
  simp [handleNodeLoop]

theorem handleNodeLoop_stop_far {lvl : Nat}
    {childA : Wheel lvl → Nat → Wheel lvl × Nat × List Nat} {fuel : Nat}
    {sub : Fin 64 → Option (Wheel lvl)} {bm rem cnt : Nat} {fired : List Nat}
    (h0 : bm ≠ 0) (hfar : rem < ctz64 bm * msPerSlot (lvl + 1)) :
    handleNodeLoop lvl childA (fuel + 1) sub bm rem cnt fired = ⟨sub, bm, cnt, fired⟩ := by
  simp [handleNodeLoop, h0, hfar]

theorem handleNodeLoop_none {lvl : Nat}
    {childA : Wheel lvl → Nat → Wheel lvl × Nat × List Nat} {fuel : Nat}
    {sub : Fin 64 → Option (Wheel lvl)} {bm rem cnt : Nat} {fired : List Nat}
    (h0 : bm ≠ 0) (hgo : ¬rem < ctz64 bm * msPerSlot (lvl + 1))
    (hc : getF sub (ctz64 bm) none = none) :
    handleNodeLoop lvl childA (fuel + 1) sub bm rem cnt fired = ⟨sub, bm, cnt, fired⟩ := by
  simp [handleNodeLoop, h0, hgo, hc]

theorem handleNodeLoop_go_empty {lvl : Nat}
    {childA : Wheel lvl → Nat → Wheel lvl × Nat × List Nat} {fuel : Nat}
    {sub : Fin 64 → Option (Wheel lvl)} {bm rem cnt : Nat} {fired : List Nat}
    {c : Wheel lvl} (h0 : bm ≠ 0) (hgo : ¬rem < ctz64 bm * msPerSlot (lvl + 1))
    (hc : getF sub (ctz64 bm) none = some c)
    (he : bitmapOf lvl (childA c (rem - ctz64 bm * msPerSlot (lvl + 1))).1 = 0) :
    handleNodeLoop lvl childA (fuel + 1) sub bm rem cnt fired =
      handleNodeLoop lvl childA fuel (updF sub (ctz64 bm) none) (clearBit bm (ctz64 bm))
        rem (cnt + (childA c (rem - ctz64 bm * msPerSlot (lvl + 1))).2.1)
        (fired ++ (childA c (rem - ctz64 bm * msPerSlot (lvl + 1))).2.2) := by
  simp [handleNodeLoop, h0, hgo, hc, he]

theorem handleNodeLoop_break {lvl : Nat}
    {childA : Wheel lvl → Nat → Wheel lvl × Nat × List Nat} {fuel : Nat}
    {sub : Fin 64 → Option (Wheel lvl)} {bm rem cnt : Nat} {fired : List Nat}
    {c : Wheel lvl} (h0 : bm ≠ 0) (hgo : ¬rem < ctz64 bm * msPerSlot (lvl + 1))
    (hc : getF sub (ctz64 bm) none = some c)
    (he : ¬bitmapOf lvl (childA c (rem - ctz64 bm * msPerSlot (lvl + 1))).1 = 0) :
    handleNodeLoop lvl childA (fuel + 1) sub bm rem cnt fired =
      ⟨updF sub (ctz64 bm) (some (childA c (rem - ctz64 bm * msPerSlot (lvl + 1))).1), bm,
       cnt + (childA c (rem - ctz64 bm * msPerSlot (lvl + 1))).2.1,
       fired ++ (childA c (rem - ctz64 bm * msPerSlot (lvl + 1))).2.2⟩ := by
  simp [handleNodeLoop, h0, hgo, hc, he]

theorem specNode_cons_far {lvl : Nat} {childB : Wheel lvl → Nat → Wheel lvl × List Nat}
    {i : Nat} {rest : List Nat} {sub : Fin 64 → Option (Wheel lvl)} {bm rem : Nat}
    (hfar : rem < i * msPerSlot (lvl + 1)) :
    specNode lvl childB (i :: rest) sub bm rem = (sub, bm, []) := by
  simp [specNode, hfar]

theorem specNode_cons_none {lvl : Nat} {childB : Wheel lvl → Nat → Wheel lvl × List Nat}
    {i : Nat} {rest : List Nat} {sub : Fin 64 → Option (Wheel lvl)} {bm rem : Nat}
    (hgo : ¬rem < i * msPerSlot (lvl + 1)) (hc : getF sub i none = none) :
    specNode lvl childB (i :: rest) sub bm rem = (sub, bm, []) := by
  simp [specNode, hgo, hc]

theorem specNode_cons_empty {lvl : Nat} {childB : Wheel lvl → Nat → Wheel lvl × List Nat}
    {i : Nat} {rest : List Nat} {sub : Fin 64 → Option (Wheel lvl)} {bm rem : Nat}
    {c : Wheel lvl} (hgo : ¬rem < i * msPerSlot (lvl + 1))
    (hc : getF sub i none = some c)
    (he : bitmapOf lvl (childB c (rem - i * msPerSlot (lvl + 1))).1 = 0) :
    specNode lvl childB (i :: rest) sub bm rem =
      ((specNode lvl childB rest (updF sub i none) (clearBit bm i) rem).1,
       (specNode lvl childB rest (updF sub i none) (clearBit bm i) rem).2.1,
       (childB c (rem - i * msPerSlot (lvl + 1))).2 ++
         (specNode lvl childB rest (updF sub i none) (clearBit bm i) rem).2.2) := by
  simp [specNode, hgo, hc, he]

theorem specNode_cons_break {lvl : Nat} {childB : Wheel lvl → Nat → Wheel lvl × List Nat}
    {i : Nat} {rest : List Nat} {sub : Fin 64 → Option (Wheel lvl)} {bm rem : Nat}
    {c : Wheel lvl} (hgo : ¬rem < i * msPerSlot (lvl + 1))
    (hc : getF sub i none = some c)
    (he : ¬bitmapOf lvl (childB c (rem - i * msPerSlot (lvl + 1))).1 = 0) :
    specNode lvl childB (i :: rest) sub bm rem =
      (updF sub i (some (childB c (rem - i * msPerSlot (lvl + 1))).1), bm,
       (childB c (rem - i * msPerSlot (lvl + 1))).2) := by
  simp [specNode, hgo, hc, he]

theorem handleNodeLoop_eq_spec (lvl : Nat)
    (childA : Wheel lvl → Nat → Wheel lvl × Nat × List Nat)
    (childB : Wheel lvl → Nat → Wheel lvl × List Nat)
    (hchild : ∀ (c : Wheel lvl) (rem : Nat), Faithful lvl c →
      childA c rem = ((childB c rem).1, (childB c rem).2.length, (childB c rem).2)) :
    ∀ (fuel : Nat) (sub : Fin 64 → Option (Wheel lvl)) (bm rem cnt : Nat) (fired : List Nat),
      bm < 2 ^ 64 → (setBits bm).length ≤ fuel →
      (∀ (i : Fin 64) (c : Wheel lvl), sub i = some c → Faithful lvl c) →
      handleNodeLoop lvl childA fuel sub bm rem cnt fired =
        ⟨(specNode lvl childB (setBits bm) sub bm rem).1,
         (specNode lvl childB (setBits bm) sub bm rem).2.1,
         cnt + (specNode lvl childB (setBits bm) sub bm rem).2.2.length,
         fired ++ (specNode lvl childB (setBits bm) sub bm rem).2.2⟩ := by
  intro fuel
  induction fuel with
  | zero =>
      intro sub bm rem cnt fired hbm hlen hinv
      have hnil : setBits bm = [] := List.length_eq_zero.mp (by omega)
      have h0 : bm = 0 := (setBits_eq_nil hbm).mp hnil
      subst h0
      rw [hnil]
      show Scan.mk sub 0 cnt fired = _
      simp [specNode]
  | succ fuel ih =>
      intro sub bm rem cnt fired hbm hlen hinv
      by_cases h0 : bm = 0
      · subst h0
        rw [handleNodeLoop_stop_zero, setBits_zero]
        simp [specNode]
      · rw [setBits_cons h0 hbm]
        by_cases hfar : rem < ctz64 bm * msPerSlot (lvl + 1)
        · rw [handleNodeLoop_stop_far h0 hfar, specNode_cons_far hfar]
          simp
        · cases hc : getF sub (ctz64 bm) none with
          | none =>
              rw [handleNodeLoop_none h0 hfar hc, specNode_cons_none hfar hc]
              simp
          | some c =>
              obtain ⟨hilt, hsubc⟩ := getF_some_lt hc
              have hcf : Faithful lvl c := hinv _ c hsubc
              have hch := hchild c (rem - ctz64 bm * msPerSlot (lvl + 1)) hcf
              by_cases he : bitmapOf lvl
                  (childB c (rem - ctz64 bm * msPerSlot (lvl + 1))).1 = 0
              · have heA : bitmapOf lvl
                    (childA c (rem - ctz64 bm * msPerSlot (lvl + 1))).1 = 0 := by
                  rw [hch]; exact he
                rw [handleNodeLoop_go_empty h0 hfar hc heA,
                  specNode_cons_empty hfar hc he]
                have hlen' : (setBits (clearBit bm (ctz64 bm))).length ≤ fuel := by
                  rw [setBits_cons h0 hbm] at hlen
                  simpa using hlen
                have hinv' : ∀ (j : Fin 64) (c' : Wheel lvl),
                    updF sub (ctz64 bm) none j = some c' → Faithful lvl c' := by
                  intro j c' hj
                  by_cases hji : j.val = ctz64 bm
                  · rw [updF, if_pos hji] at hj; cases hj
                  · rw [updF_other _ _ hji] at hj
                    exact hinv j c' hj
                rw [ih _ _ rem _ _ (clearBit_lt_two_pow hbm _) hlen' hinv']
                rw [hch]
                simp only [Scan.mk.injEq, List.length_append, List.append_assoc,
                  true_and, and_true]
                omega
              · have heA : ¬bitmapOf lvl
                    (childA c (rem - ctz64 bm * msPerSlot (lvl + 1))).1 = 0 := by
                  rw [hch]; exact he
                rw [handleNodeLoop_break h0 hfar hc heA, specNode_cons_break hfar hc he]
                rw [hch]

/-! ## Faithfulness is preserved by the expiry scan -/

theorem clearSubSlot_faithful {lvl : Nat} {bm : Nat} {sub : Fin 64 → Option (Wheel lvl)}
    (i : Nat) (hw : Faithful (lvl + 1) (Wheel.node bm sub)) :
    Faithful (lvl + 1) (Wheel.node (clearBit bm i) (updF sub i none)) := by
  obtain ⟨hbm, hsub⟩ := hw
  refine ⟨clearBit_lt_two_pow hbm i, fun j => ?_⟩
  constructor
  · show ((clearBit bm i).testBit j.val = true ↔ (updF sub i none j).isSome = true)
    rw [testBit_clearBit]
    by_cases hij : j.val = i
    · rw [if_pos hij]
      simp [updF, hij]
    · rw [if_neg hij, updF_other _ _ hij]
      exact (hsub j).1
  · intro c hc
    replace hc : updF sub i none j = some c := hc
    by_cases hij : j.val = i
    · rw [updF, if_pos hij] at hc
      cases hc
    · rw [updF_other _ _ hij] at hc
      exact (hsub j).2 c hc

theorem specNode_faithful (lvl : Nat)
    (childB : Wheel lvl → Nat → Wheel lvl × List Nat)
    (hchildF : ∀ (c : Wheel lvl) (rem : Nat), Faithful lvl c →
      Faithful lvl (childB c rem).1) :
    ∀ (L : List Nat) (sub : Fin 64 → Option (Wheel lvl)) (bm rem : Nat),
      Faithful (lvl + 1) (Wheel.node bm sub) →
      Faithful (lvl + 1) (Wheel.node (specNode lvl childB L sub bm rem).2.1
        (specNode lvl childB L sub bm rem).1) := by
  intro L
  induction L with
  | nil => intro sub bm rem hw; exact hw
  | cons i rest ih =>
      intro sub bm rem hw
      by_cases hfar : rem < i * msPerSlot (lvl + 1)
      · rw [specNode_cons_far hfar]; exact hw
      · cases hc : getF sub i none with
        | none => rw [specNode_cons_none hfar hc]; exact hw
        | some c =>
            obtain ⟨hilt, hsubc⟩ := getF_some_lt hc
            have hcf := (hw.2 ⟨i, hilt⟩).2 c hsubc
            by_cases he : bitmapOf lvl (childB c (rem - i * msPerSlot (lvl + 1))).1 = 0
            · rw [specNode_cons_empty hfar hc he]
              exact ih _ _ rem (clearSubSlot_faithful i hw)
            · rw [specNode_cons_break hfar hc he]
              obtain ⟨hbm, hsub⟩ := hw
              refine ⟨hbm, fun j => ?_⟩
              constructor
              · show (bm.testBit j.val = true ↔
                  (updF sub i (some (childB c (rem - i * msPerSlot (lvl + 1))).1) j).isSome
                    = true)
                by_cases hij : j.val = i
                · have hfin : j = (⟨i, hilt⟩ : Fin 64) := Fin.ext hij
                  rw [hfin, updF_self]
                  simp only [Option.isSome_some, iff_true]
                  exact (hsub ⟨i, hilt⟩).1.mpr
                    (by show (sub ⟨i, hilt⟩).isSome = true; rw [hsubc]; rfl)
                · rw [updF_other _ _ hij]
                  exact (hsub j).1
              · intro c' hc'
                replace hc' : updF sub i
                    (some (childB c (rem - i * msPerSlot (lvl + 1))).1) j = some c' := hc'
                by_cases hij : j.val = i
                · have hfin : j = (⟨i, hilt⟩ : Fin 64) := Fin.ext hij
                  rw [hfin, updF_self] at hc'
                  cases Option.some.inj hc'
                  exact ⟨he, hchildF c _ hcf.2⟩
                · rw [updF_other _ _ hij] at hc'
                  exact (hsub j).2 c' hc'

theorem specScan_faithful : ∀ (n : Nat) (w : Wheel n) (rem : Nat),
    Faithful n w → Faithful n (specScan n w rem).1 := by
  intro n
  induction n with
  | zero =>
      intro w rem hw
      show Faithful 0 (Wheel.leaf (specLeaf (setBits w.1) w.2 w.1 rem).2.1
        (specLeaf (setBits w.1) w.2 w.1 rem).1)
      exact specLeaf_faithful _ _ _ rem hw
  | succ n ih =>
      intro w rem hw
      show Faithful (n + 1)
        (Wheel.node (specNode n (specScan n) (setBits w.1) w.2 w.1 rem).2.1
          (specNode n (specScan n) (setBits w.1) w.2 w.1 rem).1)
      exact specNode_faithful n (specScan n) (fun c r hc => ih c r hc) _ _ _ rem hw

theorem handleExpired_eq_spec : ∀ (n : Nat) (w : Wheel n) (rem : Nat),
    Faithful n w →
    handleExpired n w rem =
      ((specScan n w rem).1, (specScan n w rem).2.length, (specScan n w rem).2) := by
  intro n
  induction n with
  | zero =>
      intro w rem hw
      show ((Wheel.leaf (handleLeafLoop 64 w.2 w.1 rem 0 []).bm
          (handleLeafLoop 64 w.2 w.1 rem 0 []).slots : Wheel 0),
        (handleLeafLoop 64 w.2 w.1 rem 0 []).cnt,
        (handleLeafLoop 64 w.2 w.1 rem 0 []).fired) = _
      rw [handleLeafLoop_eq_spec 64 w.2 w.1 rem 0 [] hw.1 (length_setBits_le w.1)]
      simp [specScan]
  | succ n ih =>
      intro w rem hw
      show ((Wheel.node (handleNodeLoop n (handleExpired n) 64 w.2 w.1 rem 0 []).bm
          (handleNodeLoop n (handleExpired n) 64 w.2 w.1 rem 0 []).slots : Wheel (n + 1)),
        (handleNodeLoop n (handleExpired n) 64 w.2 w.1 rem 0 []).cnt,
        (handleNodeLoop n (handleExpired n) 64 w.2 w.1 rem 0 []).fired) = _
      rw [handleNodeLoop_eq_spec n (handleExpired n) (specScan n) ih 64 w.2 w.1 rem 0 []
        hw.1 (length_setBits_le w.1) (fun i c hc => ((hw.2 i).2 c hc).2)]
      simp [specScan]

theorem handleExpired_faithful (n : Nat) (w : Wheel n) (rem : Nat) (hw : Faithful n w) :
    Faithful n (handleExpired n w rem).1 := by
  rw [handleExpired_eq_spec n w rem hw]
  exact specScan_faithful n w rem hw

/-! ## Rotate is the identity for `n == 0 || n >= 64` -/

theorem rotate_eq_self (n : Nat) (w : Wheel n) (k : Nat) (h : k = 0 ∨ 64 ≤ k) :
    rotate n w k = w := by
  match n with
  | 0 =>
      show (if k = 0 ∨ 64 ≤ k then w else
        Wheel.leaf (w.1 >>> k)
          (fun i => if hk : i.val + k < 64 then w.2 ⟨i.val + k, hk⟩ else [])) = w
      rw [if_pos h]
  | m + 1 =>
      show (if k = 0 ∨ 64 ≤ k then w else
        Wheel.node (w.1 >>> k)
          (fun i => if hk : i.val + k < 64 then w.2 ⟨i.val + k, hk⟩ else none)) = w
      rw [if_pos h]

/-! ## NextExpirationTime characterization -/

theorem nextExp_empty (n : Nat) (w : Wheel n) (h : bitmapOf n w = 0) :
    nextExpirationTime n w = 2 ^ 64 - 1 := by
  match n with
  | 0 => simp [nextExpirationTime, show w.1 = 0 from h]
  | m + 1 => simp [nextExpirationTime, show w.1 = 0 from h]

theorem nextExp_leaf_pos {w : Wheel 0} (h : ¬w.1 = 0) :
    nextExpirationTime 0 w = ctz64 w.1 := by
  simp [nextExpirationTime, h]

theorem nextExp_node_some {n : Nat} {w : Wheel (n + 1)} {c : Wheel n}
    (h0 : ¬w.1 = 0) (hc : getF w.2 (ctz64 w.1) none = some c) :
    nextExpirationTime (n + 1) w =
      (ctz64 w.1 * msPerSlot (n + 1) + nextExpirationTime n c) % 2 ^ 64 := by
  simp [nextExpirationTime, h0, hc]

theorem maxMs_eq_msPerSlot_succ : ∀ l ≤ 5, maxMs l = msPerSlot (l + 1) := by
  intro l hl
  interval_cases l <;> rfl

theorem maxMs_succ_eq : ∀ l ≤ 5, maxMs (l + 1) = 64 * msPerSlot (l + 1) := by
  intro l hl
  interval_cases l <;> rfl

theorem maxMs_le_two_pow : ∀ l ≤ 6, maxMs l ≤ 2 ^ 64 := by
  intro l hl
  interval_cases l <;> decide

theorem maxMs_pos : ∀ l ≤ 6, 0 < maxMs l := by
  intro l hl
  interval_cases l <;> decide

/-- For faithful non-empty wheels of level ≤ 6, the next expiration time is
below the wheel's span (so the `uint64` addition in the source cannot wrap). -/
theorem nextExp_lt_maxMs : ∀ (n : Nat), n ≤ 6 → ∀ (w : Wheel n), Faithful n w →
    bitmapOf n w ≠ 0 → nextExpirationTime n w < maxMs n := by
  intro n
  induction n with
  | zero =>
      intro _ w hw h0
      rw [nextExp_leaf_pos h0]
      exact ctz64_lt h0 hw.1
  | succ n ih =>
      intro hn w hw h0
      obtain ⟨hbm, hsub⟩ := hw
      have hilt : ctz64 w.1 < 64 := ctz64_lt h0 hbm
      have hbit : w.1.testBit (ctz64 w.1) = true := ctz64_testBit h0 hbm
      have hsome : (w.2 ⟨ctz64 w.1, hilt⟩).isSome = true :=
        (hsub ⟨ctz64 w.1, hilt⟩).1.mp hbit
      obtain ⟨c, hc⟩ := Option.isSome_iff_exists.mp hsome
      have hcf := (hsub ⟨ctz64 w.1, hilt⟩).2 c hc
      have hgf : getF w.2 (ctz64 w.1) none = some c := by
        rw [getF_eq_of_lt w.2 hilt none, hc]
      rw [nextExp_node_some h0 hgf]
      have hchild : nextExpirationTime n c < maxMs n :=
        ih (by omega) c hcf.2 hcf.1
      have heq : maxMs n = msPerSlot (n + 1) := maxMs_eq_msPerSlot_succ n (by omega)
      have hbound : ctz64 w.1 * msPerSlot (n + 1) + nextExpirationTime n c <
          maxMs (n + 1) := by
        rw [maxMs_succ_eq n (by omega)]
        have h1 : ctz64 w.1 * msPerSlot (n + 1) ≤ 63 * msPerSlot (n + 1) :=
          Nat.mul_le_mul_right _ (by omega)
        have h2 : nextExpirationTime n c < msPerSlot (n + 1) := heq ▸ hchild
        nlinarith [h1, h2]
      calc (ctz64 w.1 * msPerSlot (n + 1) + nextExpirationTime n c) % 2 ^ 64
          ≤ ctz64 w.1 * msPerSlot (n + 1) + nextExpirationTime n c := Nat.mod_le _ _
        _ < maxMs (n + 1) := hbound

/-! ## getIndex depends only on the interval modulo `64^7 = 2^42` -/

theorem and_mod_two_pow_eq {m : Nat} (hm : m < 2 ^ 42) (d : Nat) :
    (d % 2 ^ 42) &&& m = d &&& m := by
  apply Nat.eq_of_testBit_eq
  intro j
  rw [Nat.testBit_and, Nat.testBit_and, Nat.testBit_mod_two_pow]
  by_cases hj : j < 42
  · simp [hj]
  · have hmf : m.testBit j = false :=
      Nat.testBit_lt_two_pow (lt_of_lt_of_le hm (Nat.pow_le_pow_right (by omega) (by omega)))
    simp [hj, hmf]

theorem mask_lt_two_pow_42 : ∀ l ≤ 6, mask l < 2 ^ 42 := by
  intro l hl
  interval_cases l <;> decide

theorem getIndex_mod : ∀ l ≤ 6, ∀ d, getIndex l (d % 2 ^ 42) = getIndex l d := by
  intro l hl d
  by_cases h0 : l = 0
  · subst h0
    show (d % 2 ^ 42) &&& SlotMask = d &&& SlotMask
    have hsm : SlotMask < 2 ^ 42 := by decide
    exact and_mod_two_pow_eq hsm d
  · show (if l = 0 then (d % 2 ^ 42) &&& SlotMask
      else ((d % 2 ^ 42) &&& mask l) >>> shift l) = getIndex l d
    rw [if_neg h0, and_mod_two_pow_eq (mask_lt_two_pow_42 l hl) d]
    show _ = (if l = 0 then d &&& SlotMask else (d &&& mask l) >>> shift l)
    rw [if_neg h0]

theorem addEntry_mod : ∀ n ≤ 6, ∀ (w : Wheel n) (e d : Nat),
    addEntry n w e (d % 2 ^ 42) = addEntry n w e d := by
  intro n
  induction n with
  | zero =>
      intro _ w e d
      rw [addEntry_zero_eq, addEntry_zero_eq, getIndex_mod 0 (by omega) d]
  | succ n ih =>
      intro hn w e d
      have hidx : getIndex (n + 1) d < 64 := getIndex_lt (n + 1) d
      have hmod : getIndex (n + 1) (d % 2 ^ 42) = getIndex (n + 1) d :=
        getIndex_mod (n + 1) hn d
      have hfin : (⟨getIndex (n + 1) (d % 2 ^ 42), hmod ▸ hidx⟩ : Fin 64) =
          ⟨getIndex (n + 1) d, hidx⟩ := Fin.ext hmod
      cases hc : w.2 ⟨getIndex (n + 1) d, hidx⟩ with
      | none =>
          rw [addEntry_succ_none w e d hidx hc,
            addEntry_succ_none w e (d % 2 ^ 42) (hmod ▸ hidx) (by rw [hfin]; exact hc)]
          rw [hmod, ih (by omega) (newWheel n) e d]
      | some c =>
          rw [addEntry_succ_some w e d c hidx hc,
            addEntry_succ_some w e (d % 2 ^ 42) c (hmod ▸ hidx) (by rw [hfin]; exact hc)]
          rw [hmod, ih (by omega) c e d]

/-- The added entry is really stored in the wheel. -/
theorem addEntry_mem : ∀ (n : Nat) (w : Wheel n) (e d : Nat),
    e ∈ entriesOf n (addEntry n w e d) := by
  intro n
  induction n with
  | zero =>
      intro w e d
      have hidx : getIndex 0 d < 64 := getIndex_lt 0 d
      rw [addEntry_zero_eq]
      show e ∈ ((List.finRange 64).map
        (updF w.2 (getIndex 0 d) (e :: getF w.2 (getIndex 0 d) []))).flatten
      rw [List.mem_flatten]
      refine ⟨e :: getF w.2 (getIndex 0 d) [], ?_, List.mem_cons_self e _⟩
      refine List.mem_map.mpr ⟨⟨getIndex 0 d, hidx⟩, List.mem_finRange _, ?_⟩
      rw [updF_self]
  | succ n ih =>
      intro w e d
      have hidx : getIndex (n + 1) d < 64 := getIndex_lt (n + 1) d
      cases hc : w.2 ⟨getIndex (n + 1) d, hidx⟩ with
      | none =>
          rw [addEntry_succ_none w e d hidx hc]
          show e ∈ ((List.finRange 64).map fun i =>
            match updF w.2 (getIndex (n + 1) d) (some (addEntry n (newWheel n) e d)) i with
            | none => []
            | some c => entriesOf n c).flatten
          rw [List.mem_flatten]
          refine ⟨entriesOf n (addEntry n (newWheel n) e d), ?_, ih (newWheel n) e d⟩
          refine List.mem_map.mpr ⟨⟨getIndex (n + 1) d, hidx⟩, List.mem_finRange _, ?_⟩
          rw [updF_self]
      | some c =>
          rw [addEntry_succ_some w e d c hidx hc]
          show e ∈ ((List.finRange 64).map fun i =>
            match updF w.2 (getIndex (n + 1) d) (some (addEntry n c e d)) i with
            | none => []
            | some c => entriesOf n c).flatten
          rw [List.mem_flatten]
          refine ⟨entriesOf n (addEntry n c e d), ?_, ih c e d⟩
          refine List.mem_map.mpr ⟨⟨getIndex (n + 1) d, hidx⟩, List.mem_finRange _, ?_⟩
          rw [updF_self]

/-! ## Queue lemmas -/

theorem pushAll_eq_reverse : ∀ (ps : List Nat) (q : List Nat),
    pushAll q ps = ps.reverse ++ q := by
  intro ps
  induction ps with
  | nil => intro q; simp [pushAll]
  | cons p rest ih =>
      intro q
      show pushAll (p :: q) rest = _
      rw [show pushAll (p :: q) rest = List.foldl (fun acc e => (push acc e).1) (p :: q) rest
          from rfl]
      rw [show List.foldl (fun acc e => (push acc e).1) (p :: q) rest = pushAll (p :: q) rest
          from rfl]
      rw [ih (p :: q)]
      simp

theorem popAllLoop_eq (l : List Nat) : ∀ (prev : List Nat),
    popAllLoop l prev = l.reverse ++ prev := by
  induction l with
  | nil => intro prev; simp [popAllLoop]
  | cons c rest ih =>
      intro prev
      show popAllLoop rest (c :: prev) = _
      rw [ih (c :: prev)]
      simp

theorem popAll_eq (q : List Nat) : popAll q = q.reverse := by
  show popAllLoop q [] = q.reverse
  rw [popAllLoop_eq]
  simp

theorem drainAllLoop_eq (l : List Nat) : ∀ (trace : List Nat) (count : Nat),
    drainAllLoop l trace count = (trace ++ l, count + l.length) := by
  induction l with
  | nil => intro trace count; simp [drainAllLoop]
  | cons h rest ih =>
      intro trace count
      show drainAllLoop rest (trace ++ [h]) (count + 1) = _
      rw [ih]
      simp only [Prod.mk.injEq, List.length_cons]
      exact ⟨by simp, by omega⟩

/-! ## levelUpAndAdd is capped at MaxLevel -/

theorem levelUpAndAdd_six (w : Wheel 6) (e d : Nat) :
    levelUpAndAdd 6 w e d = ⟨6, addEntry 6 w e d⟩ := by
  rw [levelUpAndAdd]
  rw [if_neg (by simp [MaxLevel])]

theorem and_shl_shr (d c s : Nat) : (d &&& (c <<< s)) >>> s = (d >>> s) &&& c := by
  apply Nat.eq_of_testBit_eq
  intro j
  rw [Nat.testBit_shiftRight, Nat.testBit_and, Nat.testBit_and, Nat.testBit_shiftRight,
    Nat.testBit_shiftLeft]
  simp [Nat.add_sub_cancel_left]

/-! ## Claims -/

/-- C1 (counterexample): a deadline `64^7` ms past the wheel start requires a
level above `L_MAX`, yet `AddEntryAt` still enqueues the entry (queue becomes
`[1]`, not empty, and no error exists), `levelUpAndAdd` caps the level at 6
and inserts anyway, and the insertion wraps: the entry is stored exactly as
one with interval 0 would be. -/
theorem claim_C1_out_of_range_counterexample :
    (timerAddEntryAt { queue := [], running := true, sleepUntil := 0 }
        1 4398046511105).1.queue = [1] ∧
    levelUpAndAdd 6 (newWheel 6) 1 4398046511104 =
      ⟨6, addEntry 6 (newWheel 6) 1 4398046511104⟩ ∧
    addEntry 6 (newWheel 6) 1 4398046511104 = addEntry 6 (newWheel 6) 1 0 := by
  refine ⟨rfl, levelUpAndAdd_six _ _ _, ?_⟩
  have h := addEntry_mod 6 (le_refl 6) (newWheel 6) 1 4398046511104
  rw [show (4398046511104 : Nat) % 2 ^ 42 = 0 from by decide] at h
  exact h.symm

/-- C1 (amended): `AddEntryAt` never fails and never checks the range: it
always pushes the entry onto the queue and returns it as the handle; the
wheel insertion caps the level at `L_MAX = 6` (`levelUpAndAdd` stops levelling
there) and the slot index computation masks the interval, so an out-of-range
entry is stored as if its interval were `interval mod 64^7` — it is enqueued
and can fire early, with no `OUT_OF_RANGE` surfaced. -/
theorem claim_C1_out_of_range_amended :
    (∀ (st : TimerSt) (e t : Nat), (timerAddEntryAt st e t).1.queue = e :: st.queue ∧
      (timerAddEntryAt st e t).2.2 = e) ∧
    (∀ (w : Wheel 6) (e d : Nat), maxMs 6 ≤ d →
      levelUpAndAdd 6 w e d = ⟨6, addEntry 6 w e d⟩) ∧
    (∀ n ≤ 6, ∀ (w : Wheel n) (e d : Nat),
      addEntry n w e (d % 2 ^ 42) = addEntry n w e d) ∧
    (∀ (n : Nat) (w : Wheel n) (e d : Nat), e ∈ entriesOf n (addEntry n w e d)) :=
  ⟨fun _ _ _ => ⟨rfl, rfl⟩, fun w e d _ => levelUpAndAdd_six w e d,
    addEntry_mod, addEntry_mem⟩

/-- C1 (amended, witness): the cap and the unconditional enqueue at concrete
inputs. -/
theorem claim_C1_out_of_range_amended_witness :
    levelUpAndAdd 6 (newWheel 6) 2 4398046511106 =
        ⟨6, addEntry 6 (newWheel 6) 2 4398046511106⟩ ∧
      addEntry 3 (newWheel 3) 5 (77 % 2 ^ 42) = addEntry 3 (newWheel 3) 5 77 :=
  ⟨claim_C1_out_of_range_amended.2.1 (newWheel 6) 2 4398046511106 (by decide),
   claim_C1_out_of_range_amended.2.2.1 3 (by decide) (newWheel 3) 5 77⟩

/-- C2: for every faithful wheel, bit `i` of the bitmap is set iff slot `i`
is non-empty (recursively non-empty child at level > 0), and this invariant
is preserved by `AddEntry`, `RemoveEntry` (on a present entry),
`HandleExpiredEntries`, `Rotate`, `LevelUp` (of a non-empty wheel) and
`LevelDown` (when `CanLevelDown`); in particular `bitmap == 0` iff the wheel
holds no entries. -/
theorem claim_C2_bitmap_faithfulness (n : Nat) (w : Wheel n) (hw : Faithful n w) :
    (∀ e d, Faithful n (addEntry n w e d)) ∧
    (∀ e d, presentAt n w e d = true → Faithful n (removeEntry n w e d)) ∧
    (∀ rem, Faithful n (handleExpired n w rem).1) ∧
    (∀ k, Faithful n (rotate n w k)) ∧
    (bitmapOf n w ≠ 0 → Faithful (n + 1) (levelUp w)) ∧
    (∀ (w' : Wheel (n + 1)), Faithful (n + 1) w' → canLevelDown (n + 1) w' = true →
      ∃ c, levelDownSub w' = some c ∧ Faithful n c) ∧
    (bitmapOf n w = 0 ↔ entriesOf n w = []) := by
  refine ⟨fun e d => addEntry_faithful n w e d hw,
    fun e d _ => removeEntry_faithful n w e d hw,
    fun rem => handleExpired_faithful n w rem hw,
    fun k => rotate_faithful n w k hw,
    fun hne => levelUp_faithful w hw hne,
    fun w' hw' hcl => ?_,
    bitmap_zero_iff_empty n w hw⟩
  obtain ⟨c, h1, _, hf⟩ := canLevelDown_faithful w' hw' hcl
  exact ⟨c, h1, hf⟩

/-- C2 (witness): faithfulness of `AddEntry` on a concrete faithful wheel. -/
theorem claim_C2_bitmap_faithfulness_witness :
    Faithful 0 (addEntry 0 (Wheel.leaf 8 fun i => if i.val = 3 then [5] else []) 7 3) :=
  (claim_C2_bitmap_faithfulness 0
    (Wheel.leaf 8 fun i => if i.val = 3 then [5] else []) (by decide)).1 7 3

/-- C3: `HandleExpiredEntries(handler, remaining_ms)` behaves exactly as the
spec words it (`specScan`: iterate the set bits least-to-most-significant; at
level 0 stop at the first set index `> remaining_ms`, otherwise dispatch the
slot in list order, clear slot and bit and continue; at level > 0 stop when
`index·ms_per_slot > remaining_ms`, otherwise recurse with the reduced
budget, dropping an emptied child and stopping otherwise), and it returns the
number of entries dispatched. -/
theorem claim_C3_expiry_scan (n : Nat) (w : Wheel n) (rem : Nat) (hw : Faithful n w) :
    handleExpired n w rem =
      ((specScan n w rem).1, (specScan n w rem).2.length, (specScan n w rem).2) :=
  handleExpired_eq_spec n w rem hw

/-- C3 (witness): the scan equivalence at a concrete two-slot wheel. -/
theorem claim_C3_expiry_scan_witness :
    handleExpired 0 (Wheel.leaf 10 fun i => if i.val = 1 then [4] else
        if i.val = 3 then [9] else []) 2 =
      ((specScan 0 (Wheel.leaf 10 fun i => if i.val = 1 then [4] else
          if i.val = 3 then [9] else []) 2).1,
       (specScan 0 (Wheel.leaf 10 fun i => if i.val = 1 then [4] else
          if i.val = 3 then [9] else []) 2).2.length,
       (specScan 0 (Wheel.leaf 10 fun i => if i.val = 1 then [4] else
          if i.val = 3 then [9] else []) 2).2) :=
  claim_C3_expiry_scan 0 (Wheel.leaf 10 fun i => if i.val = 1 then [4] else
    if i.val = 3 then [9] else []) 2 (by decide)

/-- C4: `Execute` reads the `removed` flag before any invocation: a canceled
entry's callback runs zero times, and whenever the callback does run the flag
was observed false. -/
theorem claim_C4_cancel_before_execute :
    (∀ e : EntrySt, entryExecute (entryCancel e) = false) ∧
    (∀ e : EntrySt, entryExecute e = true → e.removed = false) := by
  constructor
  · intro e; rfl
  · intro e h
    simp only [entryExecute, Bool.and_eq_true] at h
    simpa using h.1

/-- C4 (witness): a live entry executes, and canceling it first prevents the
callback. -/
theorem claim_C4_cancel_before_execute_witness :
    entryExecute (entryCancel ⟨false, true⟩) = false ∧
      (⟨false, true⟩ : EntrySt).removed = false :=
  ⟨claim_C4_cancel_before_execute.1 ⟨false, true⟩,
   claim_C4_cancel_before_execute.2 ⟨false, true⟩ (by decide)⟩

/-- C5: `NextExpirationTime` returns the maximum `uint64` for an empty wheel;
for a level-0 wheel the index of the least-significant set bitmap bit; and
for a level-ℓ wheel (0 < ℓ ≤ 6) `index · ms_per_slot[ℓ] + child
.NextExpirationTime()` where `index` is the least-significant set bit and the
child sits at that slot (the `uint64` sum cannot wrap). -/
theorem claim_C5_next_expiration :
    (∀ (n : Nat) (w : Wheel n), Faithful n w → bitmapOf n w = 0 →
      nextExpirationTime n w = 2 ^ 64 - 1) ∧
    (∀ (w : Wheel 0), Faithful 0 w → bitmapOf 0 w ≠ 0 →
      nextExpirationTime 0 w = ctz64 (bitmapOf 0 w) ∧
        (bitmapOf 0 w).testBit (ctz64 (bitmapOf 0 w)) = true ∧
        ∀ j < ctz64 (bitmapOf 0 w), (bitmapOf 0 w).testBit j = false) ∧
    (∀ (m : Nat), m + 1 ≤ 6 → ∀ (w : Wheel (m + 1)), Faithful (m + 1) w →
      bitmapOf (m + 1) w ≠ 0 →
      ∃ c, getF w.2 (ctz64 (bitmapOf (m + 1) w)) none = some c ∧
        nextExpirationTime (m + 1) w =
          ctz64 (bitmapOf (m + 1) w) * msPerSlot (m + 1) + nextExpirationTime m c ∧
        (bitmapOf (m + 1) w).testBit (ctz64 (bitmapOf (m + 1) w)) = true ∧
        ∀ j < ctz64 (bitmapOf (m + 1) w), (bitmapOf (m + 1) w).testBit j = false) := by
  refine ⟨fun n w _ h0 => nextExp_empty n w h0, ?_, ?_⟩
  · intro w hw h0
    exact ⟨nextExp_leaf_pos h0, ctz64_testBit h0 hw.1, ctz64_min hw.1⟩
  · intro m hm w hw h0
    obtain ⟨hbm, hsub⟩ := hw
    have hilt : ctz64 w.1 < 64 := ctz64_lt h0 hbm
    have hbit : w.1.testBit (ctz64 w.1) = true := ctz64_testBit h0 hbm
    have hsome : (w.2 ⟨ctz64 w.1, hilt⟩).isSome = true :=
      (hsub ⟨ctz64 w.1, hilt⟩).1.mp hbit
    obtain ⟨c, hc⟩ := Option.isSome_iff_exists.mp hsome
    have hcf := (hsub ⟨ctz64 w.1, hilt⟩).2 c hc
    have hgf : getF w.2 (ctz64 w.1) none = some c := by
      rw [getF_eq_of_lt w.2 hilt none, hc]
    refine ⟨c, hgf, ?_, hbit, ctz64_min hbm⟩
    rw [nextExp_node_some h0 hgf]
    have hchild : nextExpirationTime m c < maxMs m :=
      nextExp_lt_maxMs m (by omega) c hcf.2 hcf.1
    have heq : maxMs m = msPerSlot (m + 1) := maxMs_eq_msPerSlot_succ m (by omega)
    have hbound : ctz64 w.1 * msPerSlot (m + 1) + nextExpirationTime m c <
        maxMs (m + 1) := by
      rw [maxMs_succ_eq m (by omega)]
      have h1 : ctz64 w.1 * msPerSlot (m + 1) ≤ 63 * msPerSlot (m + 1) :=
        Nat.mul_le_mul_right _ (by omega)
      have h2 : nextExpirationTime m c < msPerSlot (m + 1) := heq ▸ hchild
      nlinarith [h1, h2]
    exact Nat.mod_eq_of_lt
      (lt_of_lt_of_le hbound (maxMs_le_two_pow (m + 1) (by omega)))

/-- C5 (witness): the least-set-bit characterization at a concrete level-0
wheel with bitmap 8 (lowest set bit 3). -/
theorem claim_C5_next_expiration_witness :
    nextExpirationTime 0 (Wheel.leaf 8 fun i => if i.val = 3 then [2] else []) =
      ctz64 (bitmapOf 0 (Wheel.leaf 8 fun i => if i.val = 3 then [2] else [])) :=
  (claim_C5_next_expiration.2.1 (Wheel.leaf 8 fun i => if i.val = 3 then [2] else [])
    (by decide) (by decide)).1

/-- C6: for every level ℓ ≤ 6 and 64-bit interval `d`, `getIndex` computes
`(d >> (6·ℓ)) & 0x3F`, and the frozen tables satisfy `msPerSlot[ℓ] = 64^ℓ`,
`maxMs[ℓ] = 64^(ℓ+1)`, `shift[ℓ] = 6ℓ`, `mask[ℓ] = 0x3F << 6ℓ`. -/
theorem claim_C6_index_arithmetic (l d : Nat) (hl : l ≤ 6) (_hd : d < 2 ^ 64) :
    getIndex l d = (d >>> (6 * l)) &&& 0x3F ∧
      msPerSlot l = 64 ^ l ∧ maxMs l = 64 ^ (l + 1) ∧
      shift l = 6 * l ∧ mask l = 0x3F <<< (6 * l) := by
  interval_cases l
  · refine ⟨?_, by decide, by decide, by decide, by decide⟩
    show d &&& SlotMask = (d >>> (6 * 0)) &&& 0x3F
    rw [show 6 * 0 = 0 from rfl, Nat.shiftRight_zero]
    rfl
  · refine ⟨?_, by decide, by decide, by decide, by decide⟩
    show (d &&& (0x3F <<< 6)) >>> 6 = (d >>> (6 * 1)) &&& 0x3F
    rw [show 6 * 1 = 6 from rfl]
    exact and_shl_shr d 0x3F 6
  · refine ⟨?_, by decide, by decide, by decide, by decide⟩
    show (d &&& (0x3F <<< 12)) >>> 12 = (d >>> (6 * 2)) &&& 0x3F
    rw [show 6 * 2 = 12 from rfl]
    exact and_shl_shr d 0x3F 12
  · refine ⟨?_, by decide, by decide, by decide, by decide⟩
    show (d &&& (0x3F <<< 18)) >>> 18 = (d >>> (6 * 3)) &&& 0x3F
    rw [show 6 * 3 = 18 from rfl]
    exact and_shl_shr d 0x3F 18
  · refine ⟨?_, by decide, by decide, by decide, by decide⟩
    show (d &&& (0x3F <<< 24)) >>> 24 = (d >>> (6 * 4)) &&& 0x3F
    rw [show 6 * 4 = 24 from rfl]
    exact and_shl_shr d 0x3F 24
  · refine ⟨?_, by decide, by decide, by decide, by decide⟩
    show (d &&& (0x3F <<< 30)) >>> 30 = (d >>> (6 * 5)) &&& 0x3F
    rw [show 6 * 5 = 30 from rfl]
    exact and_shl_shr d 0x3F 30
  · refine ⟨?_, by decide, by decide, by decide, by decide⟩
    show (d &&& (0x3F <<< 36)) >>> 36 = (d >>> (6 * 6)) &&& 0x3F
    rw [show 6 * 6 = 36 from rfl]
    exact and_shl_shr d 0x3F 36

/-- C6 (witness): the index identity evaluated at level 3, interval 12345678. -/
theorem claim_C6_index_arithmetic_witness :
    getIndex 3 12345678 = (12345678 >>> (6 * 3)) &&& 0x3F :=
  (claim_C6_index_arithmetic 3 12345678 (by decide) (by decide)).1

/-- C7: `MPSCQueue.Push` returns true iff the head it replaced was null,
i.e. exactly when the push transitioned the queue from empty to non-empty. -/
theorem claim_C7_push_signals_empty (q : List Nat) (e : Nat) :
    (push q e).2 = true ↔ (q = [] ∧ (push q e).1 ≠ []) := by
  show q.isEmpty = true ↔ (q = [] ∧ e :: q ≠ [])
  simp [List.isEmpty_iff]

/-- C8: after completed pushes p1, …, pn, `PopAll` reverses the intrusive
LIFO chain so `DrainAll` visits the entries in push order (FIFO) and returns
`n`. -/
theorem claim_C8_fifo_drain (ps : List Nat) :
    drainAll (pushAll [] ps) = (ps, ps.length) := by
  show drainAllLoop (popAll (pushAll [] ps)) [] 0 = _
  rw [pushAll_eq_reverse, List.append_nil, popAll_eq, List.reverse_reverse,
    drainAllLoop_eq]
  simp

/-- C9 (counterexample): after `Stop()` has completed (`running = false`),
`AddEntryAt` still enqueues the entry — the queue becomes `[2]` — instead of
rejecting the call; no `ALREADY_STOPPED` error exists in the code. -/
theorem claim_C9_already_stopped_counterexample :
    (timerStop { queue := [], running := true, sleepUntil := 0 }).running = false ∧
    (timerAddEntryAt (timerStop { queue := [], running := true, sleepUntil := 0 })
      2 50).1.queue = [2] :=
  ⟨rfl, rfl⟩

/-- C9 (amended): scheduling after `Stop` is not rejected: `AddEntryAt`
never consults the `running` flag — it allocates the entry, pushes it onto
the queue and returns it as the handle even when the timer is stopped (the
entry then merely sits in the queue, since the driver has exited). -/
theorem claim_C9_already_stopped_amended (st : TimerSt) (e t : Nat)
    (hstop : st.running = false) :
    (timerAddEntryAt st e t).1.queue = e :: st.queue ∧
      (timerAddEntryAt st e t).1.running = false ∧
      (timerAddEntryAt st e t).2.2 = e :=
  ⟨rfl, hstop, rfl⟩

/-- C9 (amended, witness): the enqueue-after-stop behavior at a concrete
stopped state. -/
theorem claim_C9_already_stopped_amended_witness :
    (timerAddEntryAt { queue := [7], running := false, sleepUntil := 3 } 9 1).1.queue =
        9 :: [7] ∧
      (timerAddEntryAt { queue := [7], running := false, sleepUntil := 3 }
        9 1).1.running = false ∧
      (timerAddEntryAt { queue := [7], running := false, sleepUntil := 3 } 9 1).2.2 = 9 :=
  claim_C9_already_stopped_amended
    { queue := [7], running := false, sleepUntil := 3 } 9 1 (by decide)

/-- C10: `Rotate(n)` with `n = 0` or `n ≥ 64` leaves the wheel completely
unchanged (slots and bitmap), yet the driver's maintenance step, when
`interval / ms_per_slot ≥ 64` after a long gap, still advances `start` by
`n · ms_per_slot` around the no-op rotation. -/
theorem claim_C10_rotate_noop (n : Nat) (w : Wheel n) (k start interval : Nat)
    (hk : k = 0 ∨ 64 ≤ k) (hbig : 64 ≤ interval / msPerSlot n) :
    rotate n w k = w ∧
      maintRotate n w start interval =
        (w, start + interval / msPerSlot n * msPerSlot n) := by
  refine ⟨rotate_eq_self n w k hk, ?_⟩
  show (if 0 < interval / msPerSlot n then
      (rotate n w (interval / msPerSlot n),
        start + interval / msPerSlot n * msPerSlot n)
    else (w, start)) = _
  rw [if_pos (by omega), rotate_eq_self n w _ (Or.inr hbig)]

/-- C10 (witness): rotation by 64 at a concrete wheel, and maintenance with
`interval / ms_per_slot = 70 ≥ 64`. -/
theorem claim_C10_rotate_noop_witness :
    rotate 0 (Wheel.leaf 5 fun _ => []) 64 = Wheel.leaf 5 (fun _ => []) ∧
      maintRotate 0 (Wheel.leaf 5 fun _ => []) 100 70 =
        (Wheel.leaf 5 fun _ => [], 100 + 70 / msPerSlot 0 * msPerSlot 0) :=
  claim_C10_rotate_noop 0 (Wheel.leaf 5 fun _ => []) 64 100 70
    (Or.inr (by decide)) (by decide)

end WhTimer
